import Mathlib

/-!
# Verification of `charger_stats/station_uptimes_calculator.py`

A shallow embedding of the report parser and the station-uptime aggregator
from `src/charger_stats/station_uptimes_calculator.py`, together with proofs
settling the frozen claims about the module.

Modelling conventions:
* Python integers are `Int` (arbitrary precision).
* Python `dict` values are association lists (`PyDict`) whose operations
  mirror CPython semantics: assignment overwrites the value of an existing
  key in place (keeping its position) and appends new keys at the end;
  `.values()` / `.items()` iterate in that key order.
* The fields of the `ChargerReport` dataclass are annotated `int` but Python
  does not enforce annotations, and both the code (the `float('inf')`
  comparisons on lines 227-228) and the unit tests
  (`ChargerReport(1001, float('-inf'), 1, True)`) treat IEEE infinities as
  admissible field values.  Time values are therefore embedded as `ETime`
  (an integer, `+inf`, or `-inf`); the arithmetic passes of the aggregator,
  which are only reached once the validation loop has excluded infinities,
  operate on plain `Int` reports.
* `calculation_time` starts as `float('-inf')`; it is embedded as
  `Option Int` with `none` standing for `-inf`.  The only comparisons the
  code performs against it are `>=` and `>` with a finite integer, and the
  only subtraction happens in a branch where it is finite, so the `Option`
  encoding is exact.
* Python `/` on the percentage line is modelled as exact division in `ℚ`
  (the spec's "real-valued ratio"), and `math.trunc` as truncation toward
  zero on `ℚ`.
* Exceptions are modelled with `Except`: each `raise` becomes an `.error`
  carrying the structured data of the corresponding exception class, and a
  raised error aborts the rest of the computation, as in Python.
-/

/-- `sys.maxsize` on a 64-bit CPython build. -/
def maxsize : Int := 9223372036854775807

/-- A time value as it can actually occur in a `ChargerReport` field at
runtime: a Python `int`, or one of the two float infinities. -/
inductive ETime where
  | ninf : ETime
  | fin (n : Int) : ETime
  | pinf : ETime
deriving DecidableEq, Repr

/-- Python's `>` between two time values (int / float(±inf)) as used by the
inverted-timeline check on line 225. -/
def ETime.bgt : ETime → ETime → Bool
  | .ninf, _ => false
  | .fin _, .ninf => true
  | .fin a, .fin b => decide (b < a)
  | .fin _, .pinf => false
  | .pinf, .pinf => false
  | .pinf, _ => true

/-- Python's `x == float('-inf') or x == float('inf')` (lines 227-228). -/
def ETime.isInf : ETime → Bool
  | .ninf => true
  | .fin _ => false
  | .pinf => true

/-- Extraction of the integer value of a finite time.  The aggregation
passes only run on reports that survived the infinite-timeline check, so the
`0` default for an infinity is never consulted there. -/
def ETime.toIntD : ETime → Int
  | .fin n => n
  | .ninf => 0
  | .pinf => 0

/-- The `ChargerReport` dataclass with its fields at their runtime type
(`ETime` admits the float infinities the validation loop tests for). -/
structure DynChargerReport where
  charger_id : Int
  start_time : ETime
  end_time : ETime
  charger_available : Bool
deriving DecidableEq, Repr

/-- A `ChargerReport` whose times are known to be plain integers; this is
what `parse_charger_text_reports` produces and what the aggregation passes
compute with. -/
structure ChargerReport where
  charger_id : Int
  start_time : Int
  end_time : Int
  charger_available : Bool
deriving DecidableEq, Repr

/-- View a parsed (integer-timed) report as a runtime report. -/
def ChargerReport.toDyn (r : ChargerReport) : DynChargerReport :=
  ⟨r.charger_id, .fin r.start_time, .fin r.end_time, r.charger_available⟩

/-- Forget the (already validated) finiteness of a runtime report's times. -/
def DynChargerReport.toReport (r : DynChargerReport) : ChargerReport :=
  ⟨r.charger_id, r.start_time.toIntD, r.end_time.toIntD, r.charger_available⟩

/-- The `StationUptimeCalculationState` dataclass (one mutable instance per
station). -/
structure StationUptimeCalculationState where
  earliest_charger_start_time : Int
  latest_charger_end_time : Int
  calculation_time : Option Int
  available_time : Int
deriving DecidableEq, Repr

/-- The exceptions `calculate_station_uptimes` can raise, with the
structured data each one carries. -/
inductive CalcError where
  | keyError (key : Int)
  | invertedTimeline (charger_id : Int) (start_time end_time : ETime)
  | infiniteTimeline (charger_id : Int) (start_time end_time : ETime)
  | nonExistentStationTimeline (station_id : Int)
deriving DecidableEq, Repr

/-- The exceptions `parse_charger_text_reports` can raise.  The two
`invalidValue` variants carry the `data_field`, the 0-based line index and
the `invalid_value` argument of `InvalidChargerReportValueError`; the value
is a string when the code passes the offending token and an integer when
(line 144) it passes the leaked loop variable `charger_id` from a previously
parsed line.  `nameError` is Python's `NameError` (the line-144 handler
reads `charger_id` before any station line has defined it), and
`indexError` is Python's `IndexError` from out-of-range list indexing. -/
inductive ParseError where
  | noStationsSection
  | emptyStationsSection
  | noChargerReportsSection
  | emptyChargerReportsSection
  | invalidValueStr (data_field : String) (lineIndex : Nat) (value : String)
  | invalidValueInt (data_field : String) (lineIndex : Nat) (value : Int)
  | nameError
  | indexError
deriving DecidableEq, Repr

deriving instance DecidableEq for Except

/-! ## Python dictionaries as association lists -/

/-- Association-list model of a Python `dict` keyed by `int`. -/
abbrev PyDict (β : Type) := List (Int × β)

/-- `d[k]`, returning `none` where Python raises `KeyError`. -/
def dget {β : Type} : PyDict β → Int → Option β
  | [], _ => none
  | p :: ps, k => if p.1 = k then some p.2 else dget ps k

/-- `d[k] = v`: overwrite in place if the key exists, append otherwise. -/
def dinsert {β : Type} (d : PyDict β) (k : Int) (v : β) : PyDict β :=
  if d.any (fun p => p.1 = k) then
    d.map (fun p => if p.1 = k then (k, v) else p)
  else
    d ++ [(k, v)]

/-- The key list of a dictionary, in iteration order. -/
def dkeys {β : Type} (d : PyDict β) : List Int := d.map (fun p => p.1)

/-! ## `parse_charger_text_reports` (lines 89-186)

String scalpels first: Python's `str.isspace`, `str.split()` and `int(str)`
restricted to the ASCII repertoire the input format uses. -/

/-- ASCII whitespace as recognized by `str.isspace` / `str.split()`. -/
def isPySpace (c : Char) : Bool :=
  c = ' ' || c = '\t' || c = '\n' || c = '\x0b' || c = '\x0c' || c = '\r'

/-- `str.isspace()`: non-empty and all whitespace. -/
def pyisspace (s : String) : Bool :=
  !s.data.isEmpty && s.data.all isPySpace

/-- Worker for `pysplit`: `cur` holds the characters of the current token in
reverse order. -/
def pysplitAux : List Char → List Char → List String
  | [], [] => []
  | [], cur => [String.mk cur.reverse]
  | c :: cs, cur =>
    if isPySpace c then
      match cur with
      | [] => pysplitAux cs []
      | _ => String.mk cur.reverse :: pysplitAux cs []
    else
      pysplitAux cs (c :: cur)

/-- `str.split()` with no arguments: split on whitespace runs, dropping
leading/trailing separators and empty tokens. -/
def pysplit (s : String) : List String := pysplitAux s.data []

/-- Digit-run parser for `int(str)`: consumes decimal digits, allowing a
single underscore between two digits (Python 3.6+ literal grouping). -/
def pyDigitsAux : Nat → List Char → Option Nat
  | acc, [] => some acc
  | acc, c :: cs =>
    if c.isDigit then
      pyDigitsAux (acc * 10 + (c.toNat - '0'.toNat)) cs
    else if c = '_' then
      match cs with
      | d :: cs' =>
        if d.isDigit then pyDigitsAux (acc * 10 + (d.toNat - '0'.toNat)) cs' else none
      | [] => none
    else
      none

/-- A non-empty digit run (first character must be a digit). -/
def pyDigits : List Char → Option Nat
  | [] => none
  | c :: cs =>
    if c.isDigit then pyDigitsAux (c.toNat - '0'.toNat) cs else none

/-- Both-ends whitespace strip. -/
def pyStrip (cs : List Char) : List Char :=
  ((cs.dropWhile isPySpace).reverse.dropWhile isPySpace).reverse

/-- `int(str)` for base-10 ASCII input: optional surrounding whitespace,
optional sign, non-empty digit run; `none` where Python raises
`ValueError`. -/
def pyint (s : String) : Option Int :=
  match pyStrip s.data with
  | '+' :: rest => (pyDigits rest).map (fun n => (n : Int))
  | '-' :: rest => (pyDigits rest).map (fun n => -(n : Int))
  | rest => (pyDigits rest).map (fun n => (n : Int))

/-- The list comprehension on line 142: parse every token or fail at the
first invalid one. -/
def mapPyint : List String → Option (List Int)
  | [] => some []
  | t :: ts =>
    match pyint t with
    | none => none
    | some n =>
      match mapPyint ts with
      | none => none
      | some ns => some (n :: ns)

/-- Line 146-147: `for charger_id in station_charger_ids: d[charger_id] = station_id`. -/
def insertChargers (d : PyDict Int) (station_id : Int) : List Int → PyDict Int
  | [] => d
  | c :: cs => insertChargers (dinsert d c station_id) station_id cs

/-- The value of the function-scoped variable `charger_id` after the line
146-147 loop ran over `ids` (unchanged when `ids` is empty). -/
def lastChargerVar (ids : List Int) (old : Option Int) : Option Int :=
  match ids.getLast? with
  | some c => some c
  | none => old

/-- The stations-section `while` loop (lines 132-149).  `chargerVar` tracks
the function-scoped variable `charger_id`, which the `except` handler on
line 144 reads: the comprehension's own variable does not leak in Python 3,
so the handler sees the last charger id of a previously parsed line, or no
binding at all (`NameError`).  The loop walks the suffix of the line list
starting at 0-based index `lineIndex` of the original list (the index is
carried only for error payloads). -/
def stationsLoop : List String → Nat → PyDict Int → Option Int →
    Except ParseError (PyDict Int)
  | [], _, cts, _ => .ok cts
  | line :: rest, lineIndex, cts, chargerVar =>
    if pyisspace line then .ok cts
    else
      match pysplit line with
      | [] => .error .indexError
      | t0 :: trest =>
        match pyint t0 with
        | none => .error (.invalidValueStr "station_id" lineIndex t0)
        | some station_id =>
          match mapPyint trest with
          | none =>
            match chargerVar with
            | none => .error .nameError
            | some c => .error (.invalidValueInt "charger_id" lineIndex c)
          | some ids =>
            stationsLoop rest (lineIndex + 1)
              (insertChargers cts station_id ids) (lastChargerVar ids chargerVar)

/-- The reports-section `while` loop (lines 159-181). -/
def reportsLoop : List String → Nat → List ChargerReport →
    Except ParseError (List ChargerReport)
  | [], _, acc => .ok acc
  | line :: rest, lineIndex, acc =>
    if pyisspace line then .ok acc
    else
      match (pysplit line).get? 0 with
      | none => .error .indexError
      | some t0 =>
        match pyint t0 with
        | none => .error (.invalidValueStr "charger_id" lineIndex t0)
        | some charger_id =>
          match (pysplit line).get? 1 with
          | none => .error .indexError
          | some t1 =>
            match pyint t1 with
            | none => .error (.invalidValueStr "charger_start_time" lineIndex t1)
            | some charger_start_time =>
              match (pysplit line).get? 2 with
              | none => .error .indexError
              | some t2 =>
                match pyint t2 with
                | none => .error (.invalidValueStr "charger_end_time" lineIndex t2)
                | some charger_end_time =>
                  match (pysplit line).get? 3 with
                  | none => .error .indexError
                  | some t3 =>
                    reportsLoop rest (lineIndex + 1)
                      (acc ++ [⟨charger_id, charger_start_time, charger_end_time,
                                t3 = "true"⟩])

/-- `parse_charger_text_reports` (lines 89-186). -/
def parse_charger_text_reports (text_lines : List String) :
    Except ParseError (PyDict Int × List ChargerReport) :=
  match text_lines.findIdx? (fun line => line = "[Stations]\n") with
  | none => .error .noStationsSection
  | some station_section_index =>
    match stationsLoop (text_lines.drop (station_section_index + 1))
        (station_section_index + 1) [] none with
    | .error e => .error e
    | .ok chargers_to_stations =>
      if chargers_to_stations = [] then .error .emptyStationsSection
      else
        match text_lines.findIdx?
            (fun line => line = "[Charger Availability Reports]\n") with
        | none => .error .noChargerReportsSection
        | some charger_section_index =>
          match reportsLoop (text_lines.drop (charger_section_index + 1))
              (charger_section_index + 1) [] with
          | .error e => .error e
          | .ok charger_reports =>
            if charger_reports = [] then .error .emptyChargerReportsSection
            else .ok (chargers_to_stations, charger_reports)

/-! ## `calculate_station_uptimes` (lines 212-270) -/

/-- The validation loop (lines 224-228): the first report failing a check
determines the raised error; the inverted-timeline check runs before the
infinite-timeline check on each report. -/
def validateReports : List DynChargerReport → Option CalcError
  | [] => none
  | r :: rs =>
    if r.start_time.bgt r.end_time then
      some (.invertedTimeline r.charger_id r.start_time r.end_time)
    else if r.start_time.isInf || r.end_time.isInf then
      some (.infiniteTimeline r.charger_id r.start_time r.end_time)
    else
      validateReports rs

/-- The fresh per-station state of line 231:
`StationUptimeCalculationState(sys.maxsize, 0, float('-inf'), 0)`. -/
def initState : StationUptimeCalculationState := ⟨maxsize, 0, none, 0⟩

/-- Lines 230-231: one fresh state per station id in the ownership map's
value view, keyed in first-occurrence order. -/
def initDict (chargers_to_stations : PyDict Int) :
    PyDict StationUptimeCalculationState :=
  chargers_to_stations.foldl (fun d p => dinsert d p.2 initState) []

/-- Line 233: `sorted(charger_reports, key=lambda r: r.start_time)`.
Python's `sorted` is a stable sort by the key; insertion sort is the
standard stable model of it. -/
def sortReports (charger_reports : List ChargerReport) : List ChargerReport :=
  charger_reports.insertionSort (fun a b => a.start_time ≤ b.start_time)

/-- Lines 239-243: fold one report into its station's span state (two
independent in-place `if` updates). -/
def spanUpdate (st : StationUptimeCalculationState) (r : ChargerReport) :
    StationUptimeCalculationState :=
  let st1 :=
    if r.start_time < st.earliest_charger_start_time then
      { st with earliest_charger_start_time := r.start_time }
    else st
  if r.end_time > st1.latest_charger_end_time then
    { st1 with latest_charger_end_time := r.end_time }
  else st1

/-- One iteration of the first (span) pass (lines 236-243), including the
two dictionary lookups that can raise `KeyError`. -/
def spanStep (chargers_to_stations : PyDict Int)
    (d : PyDict StationUptimeCalculationState) (r : ChargerReport) :
    Except CalcError (PyDict StationUptimeCalculationState) :=
  match dget chargers_to_stations r.charger_id with
  | none => .error (.keyError r.charger_id)
  | some station_id =>
    match dget d station_id with
    | none => .error (.keyError station_id)
    | some st => .ok (dinsert d station_id (spanUpdate st r))

/-- The first (span) pass over the sorted reports. -/
def spanPass (chargers_to_stations : PyDict Int)
    (d : PyDict StationUptimeCalculationState) :
    List ChargerReport → Except CalcError (PyDict StationUptimeCalculationState)
  | [] => .ok d
  | r :: rs =>
    match spanStep chargers_to_stations d r with
    | .error e => .error e
    | .ok d' => spanPass chargers_to_stations d' rs

/-- Lines 246-248: the id of the first station (in dictionary iteration
order) whose observed span collapsed to a single instant. -/
def firstDegenerate : PyDict StationUptimeCalculationState → Option Int
  | [] => none
  | (id, st) :: rest =>
    if st.earliest_charger_start_time = st.latest_charger_end_time then some id
    else firstDegenerate rest

/-- Lines 255-261: fold one available report into its station's coverage
state (`none` is the `float('-inf')` sentinel, against which any start time
compares `>=`). -/
def coverUpdate (st : StationUptimeCalculationState) (r : ChargerReport) :
    StationUptimeCalculationState :=
  match st.calculation_time with
  | none =>
    { st with
      available_time := st.available_time + (r.end_time - r.start_time)
      calculation_time := some r.end_time }
  | some ct =>
    if r.start_time ≥ ct then
      { st with
        available_time := st.available_time + (r.end_time - r.start_time)
        calculation_time := some r.end_time }
    else if r.end_time > ct then
      { st with
        available_time := st.available_time + (r.end_time - ct)
        calculation_time := some r.end_time }
    else st

/-- One iteration of the second (coverage) pass (lines 251-261): skip
unavailable reports entirely; otherwise look up the station and apply the
cursor rule. -/
def coverageStep (chargers_to_stations : PyDict Int)
    (d : PyDict StationUptimeCalculationState) (r : ChargerReport) :
    Except CalcError (PyDict StationUptimeCalculationState) :=
  if r.charger_available then
    match dget chargers_to_stations r.charger_id with
    | none => .error (.keyError r.charger_id)
    | some station_id =>
      match dget d station_id with
      | none => .error (.keyError station_id)
      | some st =>
        match st.calculation_time with
        | none => .ok (dinsert d station_id (coverUpdate st r))
        | some ct =>
          if r.start_time ≥ ct then .ok (dinsert d station_id (coverUpdate st r))
          else if r.end_time > ct then .ok (dinsert d station_id (coverUpdate st r))
          else .ok d
  else .ok d

/-- The second (coverage) pass over the sorted reports. -/
def coveragePass (chargers_to_stations : PyDict Int)
    (d : PyDict StationUptimeCalculationState) :
    List ChargerReport → Except CalcError (PyDict StationUptimeCalculationState)
  | [] => .ok d
  | r :: rs =>
    match coverageStep chargers_to_stations d r with
    | .error e => .error e
    | .ok d' => coveragePass chargers_to_stations d' rs

/-- `math.trunc` on an exact rational: truncation toward zero. -/
def pyTrunc (q : ℚ) : Int := if q < 0 then ⌈q⌉ else ⌊q⌋

/-- Lines 265-266: `math.trunc(available / (latest - earliest) * 100)`,
with the division read as the exact real-valued ratio. -/
def uptimePercent (st : StationUptimeCalculationState) : Int :=
  pyTrunc ((st.available_time : ℚ)
    / ((st.latest_charger_end_time - st.earliest_charger_start_time : Int) : ℚ)
    * 100)

/-- The aggregation pipeline through the coverage pass: initialization,
sort, span pass, degenerate-timeline check, coverage pass. -/
def calcStage (chargers_to_stations : PyDict Int)
    (charger_reports : List ChargerReport) :
    Except CalcError (PyDict StationUptimeCalculationState) :=
  match spanPass chargers_to_stations (initDict chargers_to_stations)
      (sortReports charger_reports) with
  | .error e => .error e
  | .ok d1 =>
    match firstDegenerate d1 with
    | some id => .error (.nonExistentStationTimeline id)
    | none =>
      coveragePass chargers_to_stations d1 (sortReports charger_reports)

/-- `calculate_station_uptimes` (lines 212-270): validate every report,
then run the aggregation pipeline on the (now known finite) reports and
emit one `(station_id, truncated percentage)` pair per station in
dictionary iteration order. -/
def calculate_station_uptimes (chargers_to_stations : PyDict Int)
    (charger_reports : List DynChargerReport) :
    Except CalcError (List (Int × Int)) :=
  match validateReports charger_reports with
  | some e => .error e
  | none =>
    match calcStage chargers_to_stations
        (charger_reports.map DynChargerReport.toReport) with
    | .error e => .error e
    | .ok d2 => .ok (d2.map (fun p => (p.1, uptimePercent p.2)))

/-- `calculate_station_uptimes` applied to integer-timed reports (the only
reports the parser ever produces). -/
def calcUptimes (chargers_to_stations : PyDict Int)
    (charger_reports : List ChargerReport) :
    Except CalcError (List (Int × Int)) :=
  calculate_station_uptimes chargers_to_stations
    (charger_reports.map ChargerReport.toDyn)

/-! ## Dictionary lemmas -/

/-- The dictionary representation invariant: keys are pairwise distinct. -/
def dNodup {β : Type} (d : PyDict β) : Prop := (dkeys d).Nodup

theorem dget_append {β : Type} (d1 d2 : PyDict β) (k : Int) :
    dget (d1 ++ d2) k =
      match dget d1 k with
      | some v => some v
      | none => dget d2 k := by
  induction d1 with
  | nil => simp [dget]
  | cons p ps ih => by_cases h : p.1 = k <;> simp [dget, h, ih]

theorem dget_overwrite_self {β : Type} (d : PyDict β) (k : Int) (v : β)
    (hmem : ∃ p ∈ d, p.1 = k) :
    dget (d.map (fun p => if p.1 = k then (k, v) else p)) k = some v := by
  induction d with
  | nil => simp at hmem
  | cons p ps ih =>
    by_cases h : p.1 = k
    · simp [dget, h]
    · obtain ⟨q, hq, hqk⟩ := hmem
      rcases List.mem_cons.mp hq with rfl | hq'
      · exact absurd hqk h
      · simp only [List.map, if_neg h, dget, if_neg h]
        exact ih ⟨q, hq', hqk⟩

theorem dget_overwrite_ne {β : Type} (d : PyDict β) (k k' : Int) (v : β)
    (hne : k' ≠ k) :
    dget (d.map (fun p => if p.1 = k then (k, v) else p)) k' = dget d k' := by
  induction d with
  | nil => simp [dget]
  | cons p ps ih =>
    simp only [List.map]
    by_cases h : p.1 = k
    · have h1 : ¬ (((k, v) : Int × β).1 = k') := fun hh => hne (by simpa using hh.symm)
      have h2 : ¬ (p.1 = k') := fun hh => hne (by rw [← hh, h])
      rw [if_pos h]
      simp only [dget, if_neg h1, if_neg h2]
      exact ih
    · rw [if_neg h]
      simp only [dget]
      by_cases h' : p.1 = k'
      · rw [if_pos h', if_pos h']
      · rw [if_neg h', if_neg h']
        exact ih

theorem dkeys_overwrite {β : Type} (d : PyDict β) (k : Int) (v : β) :
    dkeys (d.map (fun p => if p.1 = k then (k, v) else p)) = dkeys d := by
  unfold dkeys
  rw [List.map_map]
  apply List.map_congr_left
  intro p _
  by_cases h : p.1 = k
  · simp [Function.comp, h]
  · simp [Function.comp, h]

theorem dkeys_cons {β : Type} (p : Int × β) (ps : PyDict β) :
    dkeys (p :: ps) = p.1 :: dkeys ps := rfl

theorem mem_dkeys_iff {β : Type} (d : PyDict β) (k : Int) :
    k ∈ dkeys d ↔ ∃ v, (k, v) ∈ d := by
  induction d with
  | nil => simp [dkeys]
  | cons p ps ih =>
    rw [dkeys_cons, List.mem_cons, ih]
    constructor
    · intro hc
      rcases hc with h1 | ⟨v, hv⟩
      · exact ⟨p.2, by rw [h1]; simp⟩
      · exact ⟨v, List.mem_cons_of_mem _ hv⟩
    · rintro ⟨v, hv⟩
      rcases List.mem_cons.mp hv with h1 | h2
      · left
        rw [← h1]
      · right
        exact ⟨v, h2⟩

theorem dget_eq_none_iff {β : Type} (d : PyDict β) (k : Int) :
    dget d k = none ↔ k ∉ dkeys d := by
  induction d with
  | nil => simp [dget, dkeys]
  | cons p ps ih =>
    rw [dkeys_cons, List.mem_cons]
    simp only [dget]
    by_cases h : p.1 = k
    · constructor
      · intro hc; rw [if_pos h] at hc; cases hc
      · intro hc; exact absurd (Or.inl h.symm) hc
    · rw [if_neg h, ih]
      constructor
      · intro hc hmem
        rcases hmem with h1 | h2
        · exact h h1.symm
        · exact hc h2
      · intro hc h2
        exact hc (Or.inr h2)

theorem mem_of_dget {β : Type} (d : PyDict β) (k : Int) (v : β)
    (h : dget d k = some v) : (k, v) ∈ d := by
  induction d with
  | nil => simp [dget] at h
  | cons p ps ih =>
    by_cases hk : p.1 = k
    · simp only [dget, if_pos hk] at h
      have : p = (k, v) := by
        cases p
        simp_all
      simp [this]
    · simp only [dget, if_neg hk] at h
      exact List.mem_cons_of_mem _ (ih h)

theorem dget_isSome_iff {β : Type} (d : PyDict β) (k : Int) :
    (dget d k).isSome ↔ k ∈ dkeys d := by
  cases h : dget d k with
  | none =>
    constructor
    · intro hc; cases hc
    · intro hm; exact absurd hm ((dget_eq_none_iff d k).mp h)
  | some v =>
    constructor
    · intro _
      exact (mem_dkeys_iff d k).mpr ⟨v, mem_of_dget d k v h⟩
    · intro _; rfl

theorem dget_dinsert_self {β : Type} (d : PyDict β) (k : Int) (v : β) :
    dget (dinsert d k v) k = some v := by
  unfold dinsert
  split
  · rename_i hany
    apply dget_overwrite_self
    simpa using hany
  · rename_i hany
    rw [dget_append]
    have : dget d k = none := by
      rw [dget_eq_none_iff]
      intro hk
      apply hany
      obtain ⟨w, hw⟩ := (mem_dkeys_iff d k).mp hk
      simp only [List.any_eq_true, decide_eq_true_eq]
      exact ⟨(k, w), hw, rfl⟩
    simp [this, dget]

theorem dget_dinsert_ne {β : Type} (d : PyDict β) (k k' : Int) (v : β)
    (hne : k' ≠ k) :
    dget (dinsert d k v) k' = dget d k' := by
  unfold dinsert
  split
  · exact dget_overwrite_ne d k k' v hne
  · rw [dget_append]
    cases h : dget d k' with
    | some w => rfl
    | none =>
      have hkk : ¬ ((k : Int) = k') := fun hh => hne hh.symm
      simp [dget, hkk]

theorem dkeys_dinsert_of_mem {β : Type} (d : PyDict β) (k : Int) (v : β)
    (hmem : k ∈ dkeys d) :
    dkeys (dinsert d k v) = dkeys d := by
  unfold dinsert
  split
  · exact dkeys_overwrite d k v
  · rename_i hany
    exfalso
    apply hany
    simp only [List.any_eq_true, decide_eq_true_eq]
    obtain ⟨w, hw⟩ := (mem_dkeys_iff d k).mp hmem
    exact ⟨(k, w), hw, rfl⟩

theorem dget_of_mem {β : Type} (d : PyDict β) (k : Int) (v : β)
    (hnd : dNodup d) (h : (k, v) ∈ d) : dget d k = some v := by
  induction d with
  | nil => simp at h
  | cons p ps ih =>
    rcases List.mem_cons.mp h with rfl | h'
    · simp [dget]
    · have hk : k ∈ dkeys ps := (mem_dkeys_iff ps k).mpr ⟨v, h'⟩
      have hnd2 : (p.1 :: dkeys ps).Nodup := hnd
      have hp1 : p.1 ≠ k := by
        intro hh
        apply (List.nodup_cons.mp hnd2).1
        rw [hh]
        exact hk
      simp only [dget, if_neg hp1]
      exact ih (List.nodup_cons.mp hnd2).2 h'

theorem dinsert_eq_self {β : Type} (d : PyDict β) (k : Int) (v : β)
    (hnd : dNodup d) (h : dget d k = some v) : dinsert d k v = d := by
  unfold dinsert
  have hmem : (k, v) ∈ d := mem_of_dget d k v h
  have hany : d.any (fun p => decide (p.1 = k)) = true := by
    simp only [List.any_eq_true, decide_eq_true_eq]
    exact ⟨(k, v), hmem, rfl⟩
  rw [if_pos hany]
  have : ∀ p ∈ d, (if p.1 = k then ((k, v) : Int × β) else p) = p := by
    intro p hp
    obtain ⟨p1, p2⟩ := p
    by_cases hpk : p1 = k
    · have hg : dget d p1 = some p2 := dget_of_mem d p1 p2 hnd hp
      rw [hpk, h] at hg
      have hv : v = p2 := Option.some.inj hg
      simp only [if_pos hpk]
      rw [← hpk, hv]
    · simp [hpk]
  calc d.map (fun p => if p.1 = k then (k, v) else p) = d.map id := List.map_congr_left this
    _ = d := List.map_id d

theorem dkeys_dinsert_not_mem {β : Type} (d : PyDict β) (k : Int) (v : β)
    (hmem : k ∉ dkeys d) :
    dkeys (dinsert d k v) = dkeys d ++ [k] := by
  unfold dinsert
  split
  · rename_i hany
    exfalso
    apply hmem
    simp only [List.any_eq_true, decide_eq_true_eq] at hany
    obtain ⟨p, hp, hpk⟩ := hany
    exact (mem_dkeys_iff d k).mpr ⟨p.2, by rw [← hpk]; simpa using hp⟩
  · simp [dkeys]

theorem dNodup_dinsert {β : Type} (d : PyDict β) (k : Int) (v : β)
    (hnd : dNodup d) : dNodup (dinsert d k v) := by
  by_cases hmem : k ∈ dkeys d
  · unfold dNodup
    rw [dkeys_dinsert_of_mem d k v hmem]
    exact hnd
  · unfold dNodup
    rw [dkeys_dinsert_not_mem d k v hmem]
    simpa [List.nodup_append] using ⟨hnd, hmem⟩

/-! ## `initDict` lemmas -/

theorem dget_foldl_dinsert {β : Type} (c : β) (l : List (Int × Int))
    (d0 : PyDict β) (sid : Int) :
    dget (l.foldl (fun d p => dinsert d p.2 c) d0) sid =
      if sid ∈ l.map Prod.snd then some c else dget d0 sid := by
  induction l generalizing d0 with
  | nil => simp
  | cons p ps ih =>
    simp only [List.foldl, List.map, List.mem_cons]
    rw [ih]
    by_cases hps : sid ∈ ps.map Prod.snd
    · rw [if_pos hps, if_pos (Or.inr hps)]
    · rw [if_neg hps]
      by_cases hp : p.2 = sid
      · rw [if_pos (Or.inl hp.symm), hp, dget_dinsert_self]
      · rw [dget_dinsert_ne _ _ _ _ (fun hh => hp hh.symm),
          if_neg (by rintro (h1 | h2); exact hp h1.symm; exact hps h2)]

theorem dget_initDict (cts : PyDict Int) (sid : Int) :
    dget (initDict cts) sid =
      if sid ∈ cts.map Prod.snd then some initState else none := by
  unfold initDict
  rw [dget_foldl_dinsert]
  simp [dget]

theorem dNodup_foldl_dinsert {β : Type} (c : β) (l : List (Int × Int))
    (d0 : PyDict β) (hnd : dNodup d0) :
    dNodup (l.foldl (fun d p => dinsert d p.2 c) d0) := by
  induction l generalizing d0 with
  | nil => exact hnd
  | cons p ps ih => exact ih _ (dNodup_dinsert _ _ _ hnd)

theorem dNodup_initDict (cts : PyDict Int) : dNodup (initDict cts) :=
  dNodup_foldl_dinsert _ _ _ (by simp [dNodup, dkeys])

theorem mem_dkeys_initDict (cts : PyDict Int) (sid : Int) :
    sid ∈ dkeys (initDict cts) ↔ sid ∈ cts.map Prod.snd := by
  rw [← dget_isSome_iff, dget_initDict]
  by_cases h : sid ∈ cts.map Prod.snd <;> simp [h]

/-! ## Folded minima and maxima -/

theorem foldl_min_le_init (l : List Int) (i : Int) : l.foldl min i ≤ i := by
  induction l generalizing i with
  | nil => simp
  | cons a as ih => exact le_trans (ih (min i a)) (min_le_left i a)

theorem foldl_min_le_mem (l : List Int) (i x : Int) (hx : x ∈ l) :
    l.foldl min i ≤ x := by
  induction l generalizing i with
  | nil => simp at hx
  | cons a as ih =>
    rcases List.mem_cons.mp hx with rfl | hx'
    · exact le_trans (foldl_min_le_init as (min i x)) (min_le_right i x)
    · exact ih (min i a) hx'

theorem le_foldl_max_init (l : List Int) (i : Int) : i ≤ l.foldl max i := by
  induction l generalizing i with
  | nil => simp
  | cons a as ih => exact le_trans (le_max_left i a) (ih (max i a))

theorem le_foldl_max_mem (l : List Int) (i x : Int) (hx : x ∈ l) :
    x ≤ l.foldl max i := by
  induction l generalizing i with
  | nil => simp at hx
  | cons a as ih =>
    rcases List.mem_cons.mp hx with rfl | hx'
    · exact le_trans (le_max_right i x) (le_foldl_max_init as (max i x))
    · exact ih (max i a) hx'

theorem foldl_min_const (l : List Int) (i v : Int) (hl : l ≠ [])
    (hall : ∀ x ∈ l, x = v) : l.foldl min i = min i v := by
  induction l generalizing i with
  | nil => exact absurd rfl hl
  | cons a as ih =>
    have ha : a = v := hall a (List.mem_cons_self a as)
    by_cases has : as = []
    · subst has
      simp [ha]
    · simp only [List.foldl]
      rw [ih (min i a) has (fun x hx => hall x (List.mem_cons_of_mem a hx)), ha,
        min_assoc, min_self]

theorem foldl_max_const (l : List Int) (i v : Int) (hl : l ≠ [])
    (hall : ∀ x ∈ l, x = v) : l.foldl max i = max i v := by
  induction l generalizing i with
  | nil => exact absurd rfl hl
  | cons a as ih =>
    have ha : a = v := hall a (List.mem_cons_self a as)
    by_cases has : as = []
    · subst has
      simp [ha]
    · simp only [List.foldl]
      rw [ih (max i a) has (fun x hx => hall x (List.mem_cons_of_mem a hx)), ha,
        max_assoc, max_self]

/-- Folding a right-commutative function is invariant under permutation of
the list. -/
theorem foldl_perm {α β : Type} (f : β → α → β)
    (hc : ∀ b a a', f (f b a) a' = f (f b a') a)
    {l1 l2 : List α} (h : l1.Perm l2) (b : β) :
    l1.foldl f b = l2.foldl f b :=
  @List.Perm.foldl_eq _ _ f l1 l2 ⟨hc⟩ h b

theorem foldl_min_perm {l1 l2 : List Int} (h : l1.Perm l2) (i : Int) :
    l1.foldl min i = l2.foldl min i :=
  foldl_perm min (fun b a a' => min_right_comm b a a') h i

theorem foldl_max_perm {l1 l2 : List Int} (h : l1.Perm l2) (i : Int) :
    l1.foldl max i = l2.foldl max i :=
  foldl_perm max (fun b a a' => by rw [max_assoc, max_assoc, max_comm a a']) h i

/-! ## Span pass lemmas -/

/-- The reports owned by station `sid` (in list order). -/
def stationReports (cts : PyDict Int) (sid : Int) (rs : List ChargerReport) :
    List ChargerReport :=
  rs.filter (fun r => decide (dget cts r.charger_id = some sid))

/-- The reports owned by station `sid` whose availability flag is set. -/
def availReports (cts : PyDict Int) (sid : Int) (rs : List ChargerReport) :
    List ChargerReport :=
  rs.filter (fun r => r.charger_available && decide (dget cts r.charger_id = some sid))

theorem spanUpdate_eq (st : StationUptimeCalculationState) (r : ChargerReport) :
    spanUpdate st r =
      ⟨min st.earliest_charger_start_time r.start_time,
       max st.latest_charger_end_time r.end_time,
       st.calculation_time, st.available_time⟩ := by
  rcases st with ⟨e, l, c, a⟩
  simp only [spanUpdate]
  by_cases h1 : r.start_time < e <;> by_cases h2 : r.end_time > l <;>
    simp [h1, h2, StationUptimeCalculationState.mk.injEq] <;> omega

theorem foldl_spanUpdate (rs : List ChargerReport)
    (st : StationUptimeCalculationState) :
    List.foldl spanUpdate st rs =
      ⟨(rs.map (fun r => r.start_time)).foldl min st.earliest_charger_start_time,
       (rs.map (fun r => r.end_time)).foldl max st.latest_charger_end_time,
       st.calculation_time, st.available_time⟩ := by
  induction rs generalizing st with
  | nil => rfl
  | cons r rs ih =>
    simp only [List.foldl, List.map]
    rw [spanUpdate_eq, ih]

theorem spanStep_ok_elim (cts : PyDict Int)
    (d d1 : PyDict StationUptimeCalculationState) (r : ChargerReport)
    (h : spanStep cts d r = .ok d1) :
    ∃ sid st, dget cts r.charger_id = some sid ∧ dget d sid = some st ∧
      d1 = dinsert d sid (spanUpdate st r) := by
  cases hcts : dget cts r.charger_id with
  | none =>
    simp only [spanStep, hcts] at h
    cases h
  | some sid =>
    cases hd : dget d sid with
    | none =>
      simp only [spanStep, hcts, hd] at h
      cases h
    | some st =>
      simp only [spanStep, hcts, hd] at h
      exact ⟨sid, st, rfl, hd, (Except.ok.inj h).symm⟩

theorem spanPass_keys (cts : PyDict Int) (rs : List ChargerReport) :
    ∀ d d', spanPass cts d rs = .ok d' → dkeys d' = dkeys d := by
  induction rs with
  | nil =>
    intro d d' h
    injection h with h
    rw [h]
  | cons r rs ih =>
    intro d d' h
    simp only [spanPass] at h
    cases hstep : spanStep cts d r with
    | error e => rw [hstep] at h; cases h
    | ok d1 =>
      rw [hstep] at h
      obtain ⟨sid, st, hcts, hd, hd1⟩ := spanStep_ok_elim cts d d1 r hstep
      rw [ih d1 d' h, hd1, dkeys_dinsert_of_mem]
      exact (dget_isSome_iff d sid).mp (by rw [hd]; rfl)

theorem spanPass_proj (cts : PyDict Int) (rs : List ChargerReport) :
    ∀ d d' sid st, dNodup d → spanPass cts d rs = .ok d' →
      dget d sid = some st →
      dget d' sid = some (List.foldl spanUpdate st (stationReports cts sid rs)) := by
  induction rs with
  | nil =>
    intro d d' sid st _ h hst
    injection h with h
    rw [← h]
    simpa [stationReports] using hst
  | cons r rs ih =>
    intro d d' sid st hnd h hst
    simp only [spanPass] at h
    cases hstep : spanStep cts d r with
    | error e => rw [hstep] at h; cases h
    | ok d1 =>
      rw [hstep] at h
      obtain ⟨sid', st', hcts, hd, hd1⟩ := spanStep_ok_elim cts d d1 r hstep
      subst hd1
      have hnd1 : dNodup (dinsert d sid' (spanUpdate st' r)) :=
        dNodup_dinsert _ _ _ hnd
      by_cases hss : sid' = sid
      · subst hss
        have hstst : st' = st := by
          rw [hst] at hd
          exact (Option.some.inj hd).symm
        subst hstst
        have hfilter : stationReports cts sid' (r :: rs) =
            r :: stationReports cts sid' rs := by
          simp [stationReports, List.filter_cons, hcts]
        rw [hfilter]
        simp only [List.foldl]
        exact ih _ d' sid' (spanUpdate st' r) hnd1 h (dget_dinsert_self _ _ _)
      · have hfilter : stationReports cts sid (r :: rs) =
            stationReports cts sid rs := by
          simp [stationReports, List.filter_cons, hcts, hss]
        rw [hfilter]
        apply ih _ d' sid st hnd1 h
        rw [dget_dinsert_ne _ _ _ _ (fun hh => hss hh.symm)]
        exact hst

/-! ## Coverage pass lemmas

The sweep credits, for each available report processed in start-time order,
exactly the instants of `[start, end)` not already below the cursor.  The
`coveredSet` abstraction makes that precise: the credited duration is the
cardinality of the covered set of instants. -/

/-- `max` against the `-inf` cursor sentinel. -/
def cmax : Option Int → Int → Int
  | none, s => s
  | some c, s => max c s

/-- The set of integer instants at or past the cursor that lie in some
report interval `[start_time, end_time)` of the list. -/
def coveredSet : Option Int → List ChargerReport → Finset Int
  | _, [] => ∅
  | c, r :: rs => Finset.Ico (cmax c r.start_time) r.end_time ∪ coveredSet c rs

theorem le_cmax_self (c : Option Int) (s : Int) : s ≤ cmax c s := by
  cases c with
  | none => exact le_refl s
  | some ct => exact le_max_right ct s

theorem cmax_mono (c : Option Int) {a b : Int} (h : a ≤ b) :
    cmax c a ≤ cmax c b := by
  cases c with
  | none => exact h
  | some ct => exact max_le_max (le_refl ct) h

theorem cmax_le_max_cmax (c : Option Int) (s e : Int) :
    cmax c s ≤ max (cmax c e) s := by
  cases c with
  | none => exact le_max_right _ s
  | some ct =>
    exact max_le (le_trans (le_max_left ct e) (le_max_left _ s)) (le_max_right _ s)

theorem coverUpdate_eq (st : StationUptimeCalculationState) (r : ChargerReport)
    (hse : r.start_time ≤ r.end_time) :
    coverUpdate st r =
      ⟨st.earliest_charger_start_time, st.latest_charger_end_time,
       some (cmax st.calculation_time r.end_time),
       st.available_time +
         ((r.end_time - cmax st.calculation_time r.start_time).toNat : Int)⟩ := by
  rcases st with ⟨e0, l0, c0, a0⟩
  cases c0 with
  | none =>
    simp only [coverUpdate, cmax, StationUptimeCalculationState.mk.injEq,
      Option.some.injEq, true_and]
    omega
  | some ct =>
    simp only [coverUpdate, cmax]
    by_cases h1 : r.start_time ≥ ct
    · rw [if_pos h1]
      simp only [StationUptimeCalculationState.mk.injEq, Option.some.injEq,
        true_and]
      omega
    · rw [if_neg h1]
      by_cases h2 : r.end_time > ct
      · rw [if_pos h2]
        simp only [StationUptimeCalculationState.mk.injEq, Option.some.injEq,
          true_and]
        omega
      · rw [if_neg h2]
        simp only [StationUptimeCalculationState.mk.injEq, Option.some.injEq,
          true_and]
        omega

theorem mem_coveredSet (t : Int) :
    ∀ (c : Option Int) (l : List ChargerReport),
      t ∈ coveredSet c l ↔
        ∃ r ∈ l, cmax c r.start_time ≤ t ∧ t < r.end_time := by
  intro c l
  induction l with
  | nil => simp [coveredSet]
  | cons r rs ih =>
    simp only [coveredSet, Finset.mem_union, Finset.mem_Ico, ih, List.mem_cons]
    constructor
    · rintro (h | ⟨j, hj, hh⟩)
      · exact ⟨r, Or.inl rfl, h⟩
      · exact ⟨j, Or.inr hj, hh⟩
    · rintro ⟨j, hj | hj, hh⟩
      · rw [hj] at hh
        exact Or.inl hh
      · exact Or.inr ⟨j, hj, hh⟩

theorem coveredSet_perm (c : Option Int) {l1 l2 : List ChargerReport}
    (h : l1.Perm l2) : coveredSet c l1 = coveredSet c l2 := by
  ext t
  simp only [mem_coveredSet]
  constructor
  · rintro ⟨r, hr, hh⟩
    exact ⟨r, h.mem_iff.mp hr, hh⟩
  · rintro ⟨r, hr, hh⟩
    exact ⟨r, h.mem_iff.mpr hr, hh⟩

theorem coveredSet_cons_card (c : Option Int) (r : ChargerReport)
    (rs : List ChargerReport) (hse : r.start_time ≤ r.end_time)
    (hmin : ∀ x ∈ rs, r.start_time ≤ x.start_time) :
    (coveredSet c (r :: rs)).card =
      (r.end_time - cmax c r.start_time).toNat +
        (coveredSet (some (cmax c r.end_time)) rs).card := by
  have hsplit : coveredSet c (r :: rs) =
      Finset.Ico (cmax c r.start_time) r.end_time ∪
        coveredSet (some (cmax c r.end_time)) rs := by
    ext t
    simp only [coveredSet, Finset.mem_union, Finset.mem_Ico, mem_coveredSet]
    constructor
    · rintro (h | ⟨j, hj, hj1, hj2⟩)
      · exact Or.inl h
      · by_cases ht : t < cmax c r.end_time
        · left
          constructor
          · exact le_trans (cmax_mono c (hmin j hj)) hj1
          · cases c with
            | none => simpa [cmax] using ht
            | some ct =>
              simp only [cmax] at ht hj1 ⊢
              have hct : ct ≤ t := le_trans (le_max_left _ _) hj1
              rcases le_or_lt r.end_time ct with hh | hh
              · rw [max_eq_left hh] at ht
                omega
              · rw [max_eq_right (le_of_lt hh)] at ht
                exact ht
        · right
          refine ⟨j, hj, ?_, hj2⟩
          simp only [cmax]
          exact max_le (not_lt.mp ht) (le_trans (le_cmax_self c j.start_time) hj1)
    · rintro (h | ⟨j, hj, hj1, hj2⟩)
      · exact Or.inl h
      · right
        refine ⟨j, hj, ?_, hj2⟩
        simp only [cmax] at hj1
        exact le_trans (cmax_le_max_cmax c j.start_time r.end_time) hj1
  have hdisj : Disjoint (Finset.Ico (cmax c r.start_time) r.end_time)
      (coveredSet (some (cmax c r.end_time)) rs) := by
    rw [Finset.disjoint_left]
    intro t ht1 ht2
    rw [Finset.mem_Ico] at ht1
    rw [mem_coveredSet] at ht2
    obtain ⟨j, _, hj1, _⟩ := ht2
    simp only [cmax] at hj1
    have h1 : cmax c r.end_time ≤ t := le_trans (le_max_left _ _) hj1
    have h2 : r.end_time ≤ cmax c r.end_time := le_cmax_self c r.end_time
    omega
  rw [hsplit, Finset.card_union_of_disjoint hdisj, Int.card_Ico]

theorem foldl_coverUpdate_avail (rs : List ChargerReport) :
    ∀ st : StationUptimeCalculationState,
      rs.Pairwise (fun a b => a.start_time ≤ b.start_time) →
      (∀ r ∈ rs, r.start_time ≤ r.end_time) →
      (List.foldl coverUpdate st rs).available_time =
        st.available_time + ((coveredSet st.calculation_time rs).card : Int) := by
  induction rs with
  | nil => intro st _ _; simp [coveredSet]
  | cons r rs ih =>
    intro st hsort hse
    have hser : r.start_time ≤ r.end_time := hse r (List.mem_cons_self r rs)
    have hpair := List.pairwise_cons.mp hsort
    simp only [List.foldl]
    rw [ih (coverUpdate st r) hpair.2
      (fun x hx => hse x (List.mem_cons_of_mem r hx))]
    rw [coverUpdate_eq st r hser]
    simp only []
    rw [coveredSet_cons_card st.calculation_time r rs hser hpair.1]
    push_cast
    ring

theorem foldl_coverUpdate_el (rs : List ChargerReport) :
    ∀ st : StationUptimeCalculationState,
      (∀ r ∈ rs, r.start_time ≤ r.end_time) →
      (List.foldl coverUpdate st rs).earliest_charger_start_time =
          st.earliest_charger_start_time ∧
        (List.foldl coverUpdate st rs).latest_charger_end_time =
          st.latest_charger_end_time := by
  induction rs with
  | nil => intro st _; exact ⟨rfl, rfl⟩
  | cons r rs ih =>
    intro st hse
    simp only [List.foldl]
    rw [coverUpdate_eq st r (hse r (List.mem_cons_self r rs))]
    exact ih _ (fun x hx => hse x (List.mem_cons_of_mem r hx))

/-- On a well-formed dictionary, the no-op branch of `coverageStep` (interval
fully below the cursor) coincides with re-inserting the unchanged state, so
every successful step has the uniform `dinsert` shape. -/
theorem coverageStep_char (cts : PyDict Int)
    (d : PyDict StationUptimeCalculationState) (r : ChargerReport)
    (hnd : dNodup d) :
    coverageStep cts d r =
      if r.charger_available then
        match dget cts r.charger_id with
        | none => .error (.keyError r.charger_id)
        | some station_id =>
          match dget d station_id with
          | none => .error (.keyError station_id)
          | some st => .ok (dinsert d station_id (coverUpdate st r))
      else .ok d := by
  by_cases hav : r.charger_available = true
  · simp only [coverageStep, hav, if_true]
    cases hcts : dget cts r.charger_id with
    | none => simp [hcts]
    | some sid =>
      cases hd : dget d sid with
      | none => simp [hcts, hd]
      | some st =>
        cases hct : st.calculation_time with
        | none => simp [hcts, hd, hct]
        | some ct =>
          by_cases h1 : r.start_time ≥ ct
          · simp [hcts, hd, hct, h1]
          · by_cases h2 : r.end_time > ct
            · simp [hcts, hd, hct, h1, h2]
            · have hcu : coverUpdate st r = st := by
                simp only [coverUpdate, hct, if_neg h1, if_neg h2]
              simp only [hcts, hd, hct, if_neg h1, if_neg h2, hcu,
                dinsert_eq_self d sid st hnd hd]
  · simp only [coverageStep, Bool.not_eq_true] at hav ⊢
    simp [hav]

theorem coveragePass_ok_elim (cts : PyDict Int)
    (d d1 : PyDict StationUptimeCalculationState) (r : ChargerReport)
    (hnd : dNodup d) (h : coverageStep cts d r = .ok d1) :
    (r.charger_available = false ∧ d1 = d) ∨
      (r.charger_available = true ∧ ∃ sid st,
        dget cts r.charger_id = some sid ∧ dget d sid = some st ∧
        d1 = dinsert d sid (coverUpdate st r)) := by
  rw [coverageStep_char cts d r hnd] at h
  by_cases hav : r.charger_available = true
  · right
    refine ⟨hav, ?_⟩
    rw [if_pos hav] at h
    cases hcts : dget cts r.charger_id with
    | none =>
      simp only [hcts] at h
      cases h
    | some sid =>
      cases hd : dget d sid with
      | none =>
        simp only [hcts, hd] at h
        cases h
      | some st =>
        simp only [hcts, hd] at h
        exact ⟨sid, st, rfl, hd, (Except.ok.inj h).symm⟩
  · left
    rw [if_neg hav] at h
    exact ⟨Bool.not_eq_true _ ▸ hav, (Except.ok.inj h).symm⟩

theorem coveragePass_keys (cts : PyDict Int) (rs : List ChargerReport) :
    ∀ d d', dNodup d → coveragePass cts d rs = .ok d' → dkeys d' = dkeys d := by
  induction rs with
  | nil =>
    intro d d' _ h
    injection h with h
    rw [h]
  | cons r rs ih =>
    intro d d' hnd h
    simp only [coveragePass] at h
    cases hstep : coverageStep cts d r with
    | error e => rw [hstep] at h; cases h
    | ok d1 =>
      rw [hstep] at h
      rcases coveragePass_ok_elim cts d d1 r hnd hstep with
        ⟨_, rfl⟩ | ⟨_, sid, st, hcts, hd, hd1⟩
      · exact ih _ d' hnd h
      · subst hd1
        have hk : dkeys (dinsert d sid (coverUpdate st r)) = dkeys d :=
          dkeys_dinsert_of_mem _ _ _ ((dget_isSome_iff d sid).mp (by rw [hd]; rfl))
        have hnd1 := dNodup_dinsert d sid (coverUpdate st r) hnd
        rw [ih _ d' hnd1 h, hk]

theorem coveragePass_proj (cts : PyDict Int) (rs : List ChargerReport) :
    ∀ d d' sid st, dNodup d → coveragePass cts d rs = .ok d' →
      dget d sid = some st →
      dget d' sid = some (List.foldl coverUpdate st (availReports cts sid rs)) := by
  induction rs with
  | nil =>
    intro d d' sid st _ h hst
    injection h with h
    rw [← h]
    simpa [availReports] using hst
  | cons r rs ih =>
    intro d d' sid st hnd h hst
    simp only [coveragePass] at h
    cases hstep : coverageStep cts d r with
    | error e => rw [hstep] at h; cases h
    | ok d1 =>
      rw [hstep] at h
      rcases coveragePass_ok_elim cts d d1 r hnd hstep with
        ⟨hav, rfl⟩ | ⟨hav, sid', st', hcts, hd, hd1⟩
      · have hfilter : availReports cts sid (r :: rs) = availReports cts sid rs := by
          simp [availReports, List.filter_cons, hav]
        rw [hfilter]
        exact ih _ d' sid st hnd h hst
      · subst hd1
        have hnd1 := dNodup_dinsert d sid' (coverUpdate st' r) hnd
        by_cases hss : sid' = sid
        · subst hss
          have hstst : st' = st := by
            rw [hst] at hd
            exact (Option.some.inj hd).symm
          subst hstst
          have hfilter : availReports cts sid' (r :: rs) =
              r :: availReports cts sid' rs := by
            simp [availReports, List.filter_cons, hav, hcts]
          rw [hfilter]
          simp only [List.foldl]
          exact ih _ d' sid' (coverUpdate st' r) hnd1 h (dget_dinsert_self _ _ _)
        · have hfilter : availReports cts sid (r :: rs) =
              availReports cts sid rs := by
            simp [availReports, List.filter_cons, hcts, hss]
          rw [hfilter]
          apply ih _ d' sid st hnd1 h
          rw [dget_dinsert_ne _ _ _ _ (fun hh => hss hh.symm)]
          exact hst

/-! ## Degenerate-timeline check lemmas -/

theorem firstDegenerate_eq_none_iff (d : PyDict StationUptimeCalculationState) :
    firstDegenerate d = none ↔
      ∀ p ∈ d, p.2.earliest_charger_start_time ≠ p.2.latest_charger_end_time := by
  induction d with
  | nil => simp [firstDegenerate]
  | cons p ps ih =>
    simp only [firstDegenerate]
    by_cases h : p.2.earliest_charger_start_time = p.2.latest_charger_end_time
    · rw [if_pos h]
      constructor
      · intro hc; cases hc
      · intro hall; exact absurd h (hall p (List.mem_cons_self p ps))
    · rw [if_neg h, ih]
      constructor
      · intro hall q hq
        rcases List.mem_cons.mp hq with rfl | hq'
        · exact h
        · exact hall q hq'
      · intro hall q hq
        exact hall q (List.mem_cons_of_mem p hq)

theorem firstDegenerate_eq_some (d : PyDict StationUptimeCalculationState)
    (sid : Int) (h : firstDegenerate d = some sid) :
    ∃ st, (sid, st) ∈ d ∧
      st.earliest_charger_start_time = st.latest_charger_end_time := by
  induction d with
  | nil => simp [firstDegenerate] at h
  | cons p ps ih =>
    simp only [firstDegenerate] at h
    by_cases hd : p.2.earliest_charger_start_time = p.2.latest_charger_end_time
    · rw [if_pos hd] at h
      injection h with h
      refine ⟨p.2, ?_, hd⟩
      rw [← h]
      exact List.mem_cons_self p ps
    · rw [if_neg hd] at h
      obtain ⟨st, hmem, hst⟩ := ih h
      exact ⟨st, List.mem_cons_of_mem p hmem, hst⟩

/-! ## Validation and sorting lemmas -/

theorem finite_of_checks (q : DynChargerReport)
    (h1 : q.start_time.bgt q.end_time = false)
    (h2 : (q.start_time.isInf || q.end_time.isInf) = false) :
    ∃ a b, q.start_time = .fin a ∧ q.end_time = .fin b ∧ a ≤ b := by
  cases hs : q.start_time with
  | ninf => rw [hs] at h2; simp [ETime.isInf] at h2
  | pinf => rw [hs] at h2; simp [ETime.isInf] at h2
  | fin a =>
    cases he : q.end_time with
    | ninf => rw [he] at h2; simp [ETime.isInf] at h2
    | pinf => rw [hs, he] at h2; simp [ETime.isInf] at h2
    | fin b =>
      refine ⟨a, b, rfl, rfl, ?_⟩
      rw [hs, he] at h1
      simp [ETime.bgt] at h1
      omega

theorem validateReports_none_elim (l : List DynChargerReport)
    (h : validateReports l = none) :
    ∀ r ∈ l, ∃ a b, r.start_time = .fin a ∧ r.end_time = .fin b ∧ a ≤ b := by
  induction l with
  | nil => intro r hr; simp at hr
  | cons q qs ih =>
    intro r hr
    simp only [validateReports] at h
    by_cases h1 : q.start_time.bgt q.end_time = true
    · rw [if_pos h1] at h; cases h
    · rw [if_neg h1] at h
      by_cases h2 : (q.start_time.isInf || q.end_time.isInf) = true
      · rw [if_pos h2] at h; cases h
      · rw [if_neg h2] at h
        rcases List.mem_cons.mp hr with rfl | hr'
        · exact finite_of_checks r (Bool.not_eq_true _ ▸ h1)
            (Bool.not_eq_true _ ▸ h2)
        · exact ih h r hr'

theorem toDyn_toReport (r : ChargerReport) :
    (ChargerReport.toDyn r).toReport = r := rfl

theorem toReport_toDyn_of_finite (r : DynChargerReport) (a b : Int)
    (hs : r.start_time = .fin a) (he : r.end_time = .fin b) :
    ChargerReport.toDyn r.toReport = r := by
  rcases r with ⟨cid, s, e, av⟩
  simp only at hs he
  subst hs
  subst he
  rfl

theorem validateReports_map_toDyn (rs : List ChargerReport) :
    validateReports (rs.map ChargerReport.toDyn) = none ↔
      ∀ r ∈ rs, r.start_time ≤ r.end_time := by
  induction rs with
  | nil => simp [validateReports]
  | cons r rs ih =>
    simp only [List.map, validateReports, ChargerReport.toDyn]
    by_cases h1 : r.end_time < r.start_time
    · rw [if_pos (by simpa [ETime.bgt] using h1)]
      constructor
      · intro hc; cases hc
      · intro hall
        have := hall r (List.mem_cons_self r rs)
        omega
    · rw [if_neg (by simpa [ETime.bgt] using h1),
        if_neg (by simp [ETime.isInf]), ih]
      constructor
      · intro hall q hq
        rcases List.mem_cons.mp hq with rfl | hq'
        · omega
        · exact hall q hq'
      · intro hall q hq
        exact hall q (List.mem_cons_of_mem r hq)

instance : IsTotal ChargerReport (fun a b => a.start_time ≤ b.start_time) :=
  ⟨fun a b => le_total a.start_time b.start_time⟩

instance : IsTrans ChargerReport (fun a b => a.start_time ≤ b.start_time) :=
  ⟨fun _ _ _ hab hbc => le_trans hab hbc⟩

theorem sortReports_perm (rs : List ChargerReport) : (sortReports rs).Perm rs :=
  List.perm_insertionSort _ rs

theorem sortReports_sorted (rs : List ChargerReport) :
    (sortReports rs).Pairwise (fun a b => a.start_time ≤ b.start_time) :=
  List.sorted_insertionSort _ rs

/-! ## Percentage lemmas -/

theorem pyTrunc_bounds (q : ℚ) (h0 : 0 ≤ q) (h100 : q ≤ 100) :
    0 ≤ pyTrunc q ∧ pyTrunc q ≤ 100 := by
  unfold pyTrunc
  rw [if_neg (not_lt.mpr h0)]
  constructor
  · exact Int.floor_nonneg.mpr h0
  · calc ⌊q⌋ ≤ ⌊(100 : ℚ)⌋ := Int.floor_le_floor h100
      _ = 100 := by norm_num

theorem pyTrunc_zero : pyTrunc 0 = 0 := by
  simp [pyTrunc]

/-! ## Pipeline eliminations -/

theorem calcStage_ok_elim (cts : PyDict Int) (rs : List ChargerReport)
    (d2 : PyDict StationUptimeCalculationState) (h : calcStage cts rs = .ok d2) :
    ∃ d1, spanPass cts (initDict cts) (sortReports rs) = .ok d1 ∧
      firstDegenerate d1 = none ∧
      coveragePass cts d1 (sortReports rs) = .ok d2 := by
  unfold calcStage at h
  cases hsp : spanPass cts (initDict cts) (sortReports rs) with
  | error e => rw [hsp] at h; cases h
  | ok d1 =>
    rw [hsp] at h
    cases hdeg : firstDegenerate d1 with
    | some sid => simp only [hdeg] at h; cases h
    | none =>
      simp only [hdeg] at h
      exact ⟨d1, rfl, hdeg, h⟩

theorem calculate_ok_elim (cts : PyDict Int) (l : List DynChargerReport)
    (out : List (Int × Int)) (h : calculate_station_uptimes cts l = .ok out) :
    validateReports l = none ∧
      ∃ d2, calcStage cts (l.map DynChargerReport.toReport) = .ok d2 ∧
        out = d2.map (fun p => (p.1, uptimePercent p.2)) := by
  unfold calculate_station_uptimes at h
  cases hv : validateReports l with
  | some e => rw [hv] at h; cases h
  | none =>
    rw [hv] at h
    cases hcs : calcStage cts (l.map DynChargerReport.toReport) with
    | error e => rw [hcs] at h; cases h
    | ok d2 =>
      rw [hcs] at h
      exact ⟨rfl, d2, rfl, (Except.ok.inj h).symm⟩

/-! ## The central per-station description of the aggregation pipeline -/

theorem mem_avail_mem_station (cts : PyDict Int) (sid : Int)
    (rs : List ChargerReport) (r : ChargerReport)
    (hr : r ∈ availReports cts sid rs) : r ∈ stationReports cts sid rs := by
  simp only [availReports, stationReports, List.mem_filter, Bool.and_eq_true] at hr ⊢
  exact ⟨hr.1, hr.2.2⟩

theorem calcStage_station (cts : PyDict Int) (rs : List ChargerReport)
    (d2 : PyDict StationUptimeCalculationState) (sid : Int)
    (h : calcStage cts rs = .ok d2)
    (hsid : sid ∈ cts.map Prod.snd)
    (hse : ∀ r ∈ rs, r.start_time ≤ r.end_time) :
    ∃ st, dget d2 sid = some st ∧
      st.earliest_charger_start_time =
        ((stationReports cts sid (sortReports rs)).map
          (fun r => r.start_time)).foldl min maxsize ∧
      st.latest_charger_end_time =
        ((stationReports cts sid (sortReports rs)).map
          (fun r => r.end_time)).foldl max 0 ∧
      st.available_time =
        ((coveredSet none (availReports cts sid (sortReports rs))).card : Int) := by
  obtain ⟨d1, hsp, _, hcp⟩ := calcStage_ok_elim cts rs d2 h
  have hinit : dget (initDict cts) sid = some initState := by
    rw [dget_initDict, if_pos hsid]
  have h1 := spanPass_proj cts (sortReports rs) (initDict cts) d1 sid initState
    (dNodup_initDict cts) hsp hinit
  rw [foldl_spanUpdate] at h1
  have hnd1 : dNodup d1 := by
    have hk := spanPass_keys cts (sortReports rs) (initDict cts) d1 hsp
    show (dkeys d1).Nodup
    rw [hk]
    exact dNodup_initDict cts
  have h2 := coveragePass_proj cts (sortReports rs) d1 d2 sid _ hnd1 hcp h1
  have hse_sorted : ∀ r ∈ sortReports rs, r.start_time ≤ r.end_time :=
    fun r hr => hse r ((sortReports_perm rs).mem_iff.mp hr)
  have hse_avail : ∀ r ∈ availReports cts sid (sortReports rs),
      r.start_time ≤ r.end_time :=
    fun r hr => hse_sorted r (List.mem_filter.mp hr).1
  have hsort_avail : (availReports cts sid (sortReports rs)).Pairwise
      (fun a b => a.start_time ≤ b.start_time) :=
    (sortReports_sorted rs).filter _
  refine ⟨_, h2, ?_, ?_, ?_⟩
  · exact ((foldl_coverUpdate_el _ _ hse_avail).1).symm ▸ rfl
  · exact ((foldl_coverUpdate_el _ _ hse_avail).2).symm ▸ rfl
  · rw [foldl_coverUpdate_avail _ _ hsort_avail hse_avail]
    simp [initState]

/-! ## Further shared helpers -/

theorem map_toReport_toDyn (rs : List ChargerReport) :
    (rs.map ChargerReport.toDyn).map DynChargerReport.toReport = rs := by
  rw [List.map_map]
  calc rs.map (DynChargerReport.toReport ∘ ChargerReport.toDyn)
      = rs.map id := List.map_congr_left (fun r _ => toDyn_toReport r)
    _ = rs := List.map_id rs

theorem toReport_se (l : List DynChargerReport)
    (hv : validateReports l = none) :
    ∀ r ∈ l.map DynChargerReport.toReport, r.start_time ≤ r.end_time := by
  intro r hr
  rw [List.mem_map] at hr
  obtain ⟨q, hq, rfl⟩ := hr
  obtain ⟨a, b, hsa, heb, hab⟩ := validateReports_none_elim l hv q hq
  simp [DynChargerReport.toReport, hsa, heb, ETime.toIntD]
  exact hab

theorem calcUptimes_ok_elim (cts : PyDict Int) (rs : List ChargerReport)
    (out : List (Int × Int)) (h : calcUptimes cts rs = .ok out) :
    (∀ r ∈ rs, r.start_time ≤ r.end_time) ∧
      ∃ d2, calcStage cts rs = .ok d2 ∧
        out = d2.map (fun p => (p.1, uptimePercent p.2)) := by
  unfold calcUptimes at h
  obtain ⟨hv, d2, hcs, hout⟩ := calculate_ok_elim _ _ _ h
  rw [map_toReport_toDyn] at hcs
  exact ⟨(validateReports_map_toDyn rs).mp hv, d2, hcs, hout⟩

theorem stationReports_sort_perm (cts : PyDict Int) (sid : Int)
    (rs : List ChargerReport) :
    (stationReports cts sid (sortReports rs)).Perm (stationReports cts sid rs) :=
  (sortReports_perm rs).filter _

theorem uptimePercent_congr (st1 st2 : StationUptimeCalculationState)
    (he : st1.earliest_charger_start_time = st2.earliest_charger_start_time)
    (hl : st1.latest_charger_end_time = st2.latest_charger_end_time)
    (ha : st1.available_time = st2.available_time) :
    uptimePercent st1 = uptimePercent st2 := by
  unfold uptimePercent
  rw [he, hl, ha]

theorem uptimePercent_zero_avail (st : StationUptimeCalculationState)
    (h : st.available_time = 0) : uptimePercent st = 0 := by
  unfold uptimePercent
  rw [h]
  norm_num [pyTrunc]

theorem spanPass_ok_of_owned (cts : PyDict Int) (rs : List ChargerReport) :
    ∀ d : PyDict StationUptimeCalculationState,
      (∀ r ∈ rs, ∃ sid, dget cts r.charger_id = some sid ∧ sid ∈ dkeys d) →
      ∃ d', spanPass cts d rs = .ok d' := by
  induction rs with
  | nil => intro d _; exact ⟨d, rfl⟩
  | cons r rs ih =>
    intro d hown
    obtain ⟨sid, hcts, hkey⟩ := hown r (List.mem_cons_self r rs)
    have hsome : (dget d sid).isSome := (dget_isSome_iff d sid).mpr hkey
    cases hd : dget d sid with
    | none => rw [hd] at hsome; cases hsome
    | some st =>
      have hstep : spanStep cts d r = .ok (dinsert d sid (spanUpdate st r)) := by
        simp [spanStep, hcts, hd]
      have hkeys : dkeys (dinsert d sid (spanUpdate st r)) = dkeys d :=
        dkeys_dinsert_of_mem d sid _ hkey
      obtain ⟨d', hd'⟩ := ih (dinsert d sid (spanUpdate st r))
        (fun q hq => by
          obtain ⟨sq, hq1, hq2⟩ := hown q (List.mem_cons_of_mem r hq)
          exact ⟨sq, hq1, hkeys ▸ hq2⟩)
      refine ⟨d', ?_⟩
      simp only [spanPass, hstep]
      exact hd'

theorem dict_map_congr {β γ : Type} (f : Int → β → γ) :
    ∀ (d1 d2 : PyDict β), dkeys d1 = dkeys d2 → dNodup d1 →
      (∀ k v1 v2, dget d1 k = some v1 → dget d2 k = some v2 → f k v1 = f k v2) →
      d1.map (fun p => f p.1 p.2) = d2.map (fun p => f p.1 p.2) := by
  intro d1
  induction d1 with
  | nil =>
    intro d2 hk _ _
    cases d2 with
    | nil => rfl
    | cons q qs => simp [dkeys] at hk
  | cons p ps ih =>
    intro d2 hk hnd hf
    cases d2 with
    | nil => simp [dkeys] at hk
    | cons q qs =>
      rw [dkeys_cons, dkeys_cons] at hk
      injection hk with h1 h2
      have hg1 : dget (p :: ps) p.1 = some p.2 := by simp [dget]
      have hg2 : dget (q :: qs) p.1 = some q.2 := by
        simp [dget, if_pos h1.symm]
      have hv : f p.1 p.2 = f q.1 q.2 := by
        rw [← h1]
        exact hf p.1 p.2 q.2 hg1 hg2
      have hnd2 : dNodup ps := (List.nodup_cons.mp hnd).2
      have hnotin : p.1 ∉ dkeys ps := (List.nodup_cons.mp hnd).1
      have htail := ih qs h2 hnd2 (fun k v1 v2 hk1 hk2 => by
        have hkne : p.1 ≠ k := by
          intro hh
          apply hnotin
          rw [hh, ← dget_isSome_iff, hk1]
          rfl
        apply hf k v1 v2
        · simp only [dget, if_neg hkne]
          exact hk1
        · have hqne : q.1 ≠ k := h1 ▸ hkne
          simp only [dget, if_neg hqne]
          exact hk2)
      simp only [List.map]
      rw [hv, htail]

/-! ## Claims -/

/-- **C1.** For the ownership map `{1001:0, 1002:0, 1003:1, 1004:2}` and the
record list `[(1001,0,50000,T), (1001,50000,100000,T), (1002,25000,100000,T),
(1003,25000,75000,F), (1004,0,50000,T), (1004,100000,200000,T)]`,
`calculate_station_uptimes` returns exactly the pairs
`(0,100), (1,0), (2,75)`. -/
theorem C1_realistic_scenario :
    calcUptimes [(1001, 0), (1002, 0), (1003, 1), (1004, 2)]
      [⟨1001, 0, 50000, true⟩, ⟨1001, 50000, 100000, true⟩,
       ⟨1002, 25000, 100000, true⟩, ⟨1003, 25000, 75000, false⟩,
       ⟨1004, 0, 50000, true⟩, ⟨1004, 100000, 200000, true⟩] =
      .ok [(0, 100), (1, 0), (2, 75)] := by
  have hv : validateReports
      ([⟨1001, 0, 50000, true⟩, ⟨1001, 50000, 100000, true⟩,
        ⟨1002, 25000, 100000, true⟩, ⟨1003, 25000, 75000, false⟩,
        ⟨1004, 0, 50000, true⟩,
        ⟨1004, 100000, 200000, true⟩].map ChargerReport.toDyn) = none := by
    decide
  have hs : calcStage [(1001, 0), (1002, 0), (1003, 1), (1004, 2)]
      [⟨1001, 0, 50000, true⟩, ⟨1001, 50000, 100000, true⟩,
       ⟨1002, 25000, 100000, true⟩, ⟨1003, 25000, 75000, false⟩,
       ⟨1004, 0, 50000, true⟩, ⟨1004, 100000, 200000, true⟩] = .ok
      [(0, ⟨0, 100000, some 100000, 100000⟩),
       (1, ⟨25000, 75000, none, 0⟩),
       (2, ⟨0, 200000, some 200000, 150000⟩)] := by
    decide
  unfold calcUptimes calculate_station_uptimes
  rw [hv, map_toReport_toDyn, hs]
  simp only [List.map]
  norm_num [uptimePercent, pyTrunc]

/-- **C2 (counterexample).** The aggregator succeeds on this input, station 10
has exactly one record whose start time is `2^63` (above `sys.maxsize`), and
station 20 has exactly one record whose end time is `-5`; after the first
aggregation pass station 10's `earliest_charger_start_time` is `sys.maxsize`
(not the minimum start time `2^63`) and station 20's
`latest_charger_end_time` is `0` (not the maximum end time `-5`), because the
state is initialized with `sys.maxsize` and `0` and only improved by strict
comparisons. -/
theorem C2_counterexample :
    calcUptimes [(1, 10), (2, 20)]
        [⟨1, 9223372036854775808, 9223372036854775809, false⟩,
         ⟨2, -10, -5, false⟩] =
      .ok [(10, 0), (20, 0)] ∧
    spanPass [(1, 10), (2, 20)] (initDict [(1, 10), (2, 20)])
        (sortReports [⟨1, 9223372036854775808, 9223372036854775809, false⟩,
          ⟨2, -10, -5, false⟩]) =
      .ok [(10, ⟨9223372036854775807, 9223372036854775809, none, 0⟩),
           (20, ⟨-10, 0, none, 0⟩)] ∧
    (9223372036854775807 : Int) ≠ 9223372036854775808 ∧
    ((0 : Int) ≠ -5) := by
  refine ⟨?_, by decide, by decide, by decide⟩
  have hv : validateReports
      ([⟨1, 9223372036854775808, 9223372036854775809, false⟩,
        ⟨2, -10, -5, false⟩].map ChargerReport.toDyn) = none := by decide
  have hs : calcStage [(1, 10), (2, 20)]
      [⟨1, 9223372036854775808, 9223372036854775809, false⟩,
       ⟨2, -10, -5, false⟩] = .ok
      [(10, ⟨9223372036854775807, 9223372036854775809, none, 0⟩),
       (20, ⟨-10, 0, none, 0⟩)] := by decide
  unfold calcUptimes calculate_station_uptimes
  rw [hv, map_toReport_toDyn, hs]
  simp only [List.map]
  norm_num [uptimePercent, pyTrunc]

/-- **C2 (amended).** For every ownership map and record list on which the
aggregator succeeds, and for every station with at least one associated
record, the station's `latest_charger_end_time` after the first aggregation
pass equals the maximum of `0` and the maximum end time over the station's
records, and its `earliest_charger_start_time` equals the minimum of
`sys.maxsize` and the minimum start time over the station's records (the
folds below compute exactly those clamped extrema). -/
theorem C2_amended (cts : PyDict Int) (rs : List ChargerReport)
    (out : List (Int × Int)) (sid : Int)
    (hok : calcUptimes cts rs = .ok out)
    (hne : stationReports cts sid rs ≠ []) :
    ∃ d1 st, spanPass cts (initDict cts) (sortReports rs) = .ok d1 ∧
      dget d1 sid = some st ∧
      st.earliest_charger_start_time =
        ((stationReports cts sid rs).map (fun r => r.start_time)).foldl
          min maxsize ∧
      st.latest_charger_end_time =
        ((stationReports cts sid rs).map (fun r => r.end_time)).foldl max 0 := by
  obtain ⟨hse, d2, hcs, _⟩ := calcUptimes_ok_elim cts rs out hok
  obtain ⟨d1, hsp, _, _⟩ := calcStage_ok_elim cts rs d2 hcs
  have hsid : sid ∈ cts.map Prod.snd := by
    obtain ⟨r, hr⟩ := List.exists_mem_of_ne_nil _ hne
    simp only [stationReports, List.mem_filter, decide_eq_true_eq] at hr
    exact List.mem_map.mpr ⟨(r.charger_id, sid), mem_of_dget _ _ _ hr.2, rfl⟩
  have hinit : dget (initDict cts) sid = some initState := by
    rw [dget_initDict, if_pos hsid]
  have hproj := spanPass_proj cts (sortReports rs) _ d1 sid initState
    (dNodup_initDict cts) hsp hinit
  rw [foldl_spanUpdate] at hproj
  refine ⟨d1, _, hsp, hproj, ?_, ?_⟩
  · exact foldl_min_perm
      (List.Perm.map _ (stationReports_sort_perm cts sid rs)) maxsize
  · exact foldl_max_perm
      (List.Perm.map _ (stationReports_sort_perm cts sid rs)) 0

/-- **C2 (witness).** The amended claim applied to a concrete succeeding
input: one station, one record `(1, 3, 5, false)`. -/
theorem C2_amended_witness :
    ∃ d1 st, spanPass [(1, 0)] (initDict [(1, 0)])
        (sortReports [⟨1, 3, 5, false⟩]) = .ok d1 ∧
      dget d1 0 = some st ∧
      st.earliest_charger_start_time =
        ((stationReports [(1, 0)] 0 [⟨1, 3, 5, false⟩]).map
          (fun r => r.start_time)).foldl min maxsize ∧
      st.latest_charger_end_time =
        ((stationReports [(1, 0)] 0 [⟨1, 3, 5, false⟩]).map
          (fun r => r.end_time)).foldl max 0 :=
  C2_amended [(1, 0)] [⟨1, 3, 5, false⟩] [(0, 0)] 0
    (by
      simp [calcUptimes, calculate_station_uptimes, validateReports,
        ChargerReport.toDyn, ETime.bgt, ETime.isInf, DynChargerReport.toReport,
        ETime.toIntD, calcStage, sortReports, List.insertionSort,
        List.orderedInsert, spanPass, spanStep, spanUpdate, initDict, dinsert,
        dget, initState, maxsize, firstDegenerate, coveragePass, coverageStep,
        coverUpdate, uptimePercent, pyTrunc])
    (by decide)

/-- **C3 (counterexample).** A station in the ownership map with zero
associated records does not trigger the non-existent-station-timeline
failure: on the map `{5: 7}` with an empty record list,
`calculate_station_uptimes` succeeds and returns `[(7, 0)]` (the fresh state
has `earliest = sys.maxsize ≠ 0 = latest`), contradicting the claim that it
"fails with the non-existent-station-timeline condition". -/
theorem C3_counterexample :
    calcUptimes [(5, 7)] [] = .ok [(7, 0)] ∧
    ∀ sid, calcUptimes [(5, 7)] [] ≠
      .error (.nonExistentStationTimeline sid) := by
  have h1 : calcUptimes [(5, 7)] [] = .ok [(7, 0)] := by
    have hs : calcStage [(5, 7)] ([] : List ChargerReport) =
        .ok [(7, ⟨9223372036854775807, 0, none, 0⟩)] := by decide
    unfold calcUptimes calculate_station_uptimes
    rw [show validateReports (([] : List ChargerReport).map ChargerReport.toDyn)
        = none from rfl]
    rw [map_toReport_toDyn, hs]
    simp only [List.map]
    norm_num [uptimePercent, pyTrunc]
  refine ⟨h1, fun sid hc => ?_⟩
  rw [h1] at hc
  cases hc

/-- **C3 (amended).** Suppose every record passes the per-record
inverted/infinite checks (`start_time ≤ end_time` over integer times), every
record's charger id has an owning station, and some station `sid` of the
ownership map has at least one record and all of its records are identical
zero-length points at a common time `t` with `0 ≤ t ≤ sys.maxsize` (so its
clamped span collapses, `earliest = latest = t`).  Then
`calculate_station_uptimes` fails with the non-existent-station-timeline
condition, identifying a station that itself is of exactly this degenerate
kind; the percentage computation is never reached (the whole call evaluates
to this error).  A station with zero records does not qualify (its state
keeps `earliest = sys.maxsize ≠ 0 = latest`), and a station whose records
are zero-length points at a common `t < 0` or `t > sys.maxsize` does not
qualify either, because the clamped span does not collapse there. -/
theorem C3_amended (cts : PyDict Int) (rs : List ChargerReport) (sid t : Int)
    (hse : ∀ r ∈ rs, r.start_time ≤ r.end_time)
    (howned : ∀ r ∈ rs, ∃ s0, dget cts r.charger_id = some s0)
    (hne : stationReports cts sid rs ≠ [])
    (hall : ∀ r ∈ stationReports cts sid rs,
      r.start_time = t ∧ r.end_time = t)
    (h0 : 0 ≤ t) (hm : t ≤ maxsize) :
    ∃ sid', calcUptimes cts rs = .error (.nonExistentStationTimeline sid') ∧
      stationReports cts sid' rs ≠ [] ∧
      ∃ t', 0 ≤ t' ∧ t' ≤ maxsize ∧
        ∀ r ∈ stationReports cts sid' rs,
          r.start_time = t' ∧ r.end_time = t' := by
  have hv : validateReports (rs.map ChargerReport.toDyn) = none :=
    (validateReports_map_toDyn rs).mpr hse
  have hown' : ∀ r ∈ sortReports rs,
      ∃ s0, dget cts r.charger_id = some s0 ∧ s0 ∈ dkeys (initDict cts) := by
    intro r hr
    obtain ⟨s0, hs0⟩ := howned r ((sortReports_perm rs).mem_iff.mp hr)
    refine ⟨s0, hs0, ?_⟩
    rw [mem_dkeys_initDict]
    exact List.mem_map.mpr ⟨(r.charger_id, s0), mem_of_dget _ _ _ hs0, rfl⟩
  obtain ⟨d1, hsp⟩ := spanPass_ok_of_owned cts (sortReports rs) (initDict cts)
    hown'
  have hsid : sid ∈ cts.map Prod.snd := by
    obtain ⟨r, hr⟩ := List.exists_mem_of_ne_nil _ hne
    simp only [stationReports, List.mem_filter, decide_eq_true_eq] at hr
    exact List.mem_map.mpr ⟨(r.charger_id, sid), mem_of_dget _ _ _ hr.2, rfl⟩
  have hinit : dget (initDict cts) sid = some initState := by
    rw [dget_initDict, if_pos hsid]
  have hproj := spanPass_proj cts (sortReports rs) _ d1 sid initState
    (dNodup_initDict cts) hsp hinit
  rw [foldl_spanUpdate] at hproj
  have hpermS := stationReports_sort_perm cts sid rs
  have hneS : stationReports cts sid (sortReports rs) ≠ [] := by
    intro hc
    rw [hc] at hpermS
    exact hne hpermS.symm.eq_nil
  have hallS : ∀ r ∈ stationReports cts sid (sortReports rs),
      r.start_time = t ∧ r.end_time = t :=
    fun r hr => hall r (hpermS.mem_iff.mp hr)
  have hE : ((stationReports cts sid (sortReports rs)).map
      (fun r => r.start_time)).foldl min initState.earliest_charger_start_time
      = t := by
    rw [foldl_min_const _ _ t (by simpa using hneS)
      (fun x hx => by
        rw [List.mem_map] at hx
        obtain ⟨r, hr, rfl⟩ := hx
        exact (hallS r hr).1)]
    exact min_eq_right hm
  have hL : ((stationReports cts sid (sortReports rs)).map
      (fun r => r.end_time)).foldl max initState.latest_charger_end_time
      = t := by
    rw [foldl_max_const _ _ t (by simpa using hneS)
      (fun x hx => by
        rw [List.mem_map] at hx
        obtain ⟨r, hr, rfl⟩ := hx
        exact (hallS r hr).2)]
    exact max_eq_right h0
  have hdeg_ne : firstDegenerate d1 ≠ none := by
    intro hc
    rw [firstDegenerate_eq_none_iff] at hc
    apply hc _ (mem_of_dget _ _ _ hproj)
    show ((stationReports cts sid (sortReports rs)).map
        (fun r => r.start_time)).foldl min initState.earliest_charger_start_time
      = ((stationReports cts sid (sortReports rs)).map
        (fun r => r.end_time)).foldl max initState.latest_charger_end_time
    rw [hE, hL]
  obtain ⟨sid', hdeg⟩ := Option.ne_none_iff_exists'.mp hdeg_ne
  have herr : calcUptimes cts rs =
      .error (.nonExistentStationTimeline sid') := by
    simp only [calcUptimes, calculate_station_uptimes, hv, map_toReport_toDyn,
      calcStage, hsp, hdeg]
  have hnd1 : dNodup d1 := by
    show (dkeys d1).Nodup
    rw [spanPass_keys cts _ _ _ hsp]
    exact dNodup_initDict cts
  obtain ⟨st', hmem', hdeg'⟩ := firstDegenerate_eq_some d1 sid' hdeg
  have hget' : dget d1 sid' = some st' := dget_of_mem _ _ _ hnd1 hmem'
  have hsid' : sid' ∈ cts.map Prod.snd := by
    have hk : sid' ∈ dkeys d1 :=
      (dget_isSome_iff _ _).mp (by rw [hget']; rfl)
    rw [spanPass_keys cts _ _ _ hsp, mem_dkeys_initDict] at hk
    exact hk
  have hinit' : dget (initDict cts) sid' = some initState := by
    rw [dget_initDict, if_pos hsid']
  have hproj' := spanPass_proj cts (sortReports rs) _ d1 sid' initState
    (dNodup_initDict cts) hsp hinit'
  rw [foldl_spanUpdate] at hproj'
  rw [hget'] at hproj'
  have hst'eq := Option.some.inj hproj'
  have hEe : st'.earliest_charger_start_time =
      List.foldl min initState.earliest_charger_start_time
        ((stationReports cts sid' (sortReports rs)).map
          (fun r => r.start_time)) := by
    rw [hst'eq]
  have hLl : st'.latest_charger_end_time =
      List.foldl max initState.latest_charger_end_time
        ((stationReports cts sid' (sortReports rs)).map
          (fun r => r.end_time)) := by
    rw [hst'eq]
  have hpermS' := stationReports_sort_perm cts sid' rs
  have hneS' : stationReports cts sid' (sortReports rs) ≠ [] := by
    intro hc
    rw [hc] at hEe hLl
    simp only [List.map_nil, List.foldl_nil] at hEe hLl
    rw [hEe, hLl] at hdeg'
    exact absurd hdeg' (by decide)
  have hvle : ∀ r ∈ stationReports cts sid' (sortReports rs),
      r.start_time = st'.earliest_charger_start_time ∧
        r.end_time = st'.earliest_charger_start_time := by
    intro r hr
    have h1 : st'.earliest_charger_start_time ≤ r.start_time := by
      rw [hEe]
      exact foldl_min_le_mem _ _ _ (List.mem_map_of_mem _ hr)
    have h2 : r.end_time ≤ st'.latest_charger_end_time := by
      rw [hLl]
      exact le_foldl_max_mem _ _ _ (List.mem_map_of_mem _ hr)
    have h3 : r.start_time ≤ r.end_time :=
      hse r ((sortReports_perm rs).mem_iff.mp (List.mem_filter.mp hr).1)
    constructor <;> omega
  have hv0 : 0 ≤ st'.earliest_charger_start_time := by
    have h0l : (0 : Int) ≤ st'.latest_charger_end_time := by
      rw [hLl]
      exact le_foldl_max_init _ _
    omega
  have hvm : st'.earliest_charger_start_time ≤ maxsize := by
    rw [hEe]
    exact foldl_min_le_init _ _
  refine ⟨sid', herr, ?_, st'.earliest_charger_start_time, hv0, hvm, ?_⟩
  · intro hc
    apply hneS'
    have := hpermS'
    rw [hc] at this
    exact this.eq_nil
  · intro r hr
    exact hvle r (hpermS'.mem_iff.mpr hr)

/-- **C3 (witness).** The amended claim applied to a concrete input: one
station whose single record is the zero-length point `(50000, 50000)`. -/
theorem C3_amended_witness :
    ∃ sid', calcUptimes [(1, 3)] [⟨1, 50000, 50000, true⟩] =
        .error (.nonExistentStationTimeline sid') ∧
      stationReports [(1, 3)] sid' [⟨1, 50000, 50000, true⟩] ≠ [] ∧
      ∃ t', 0 ≤ t' ∧ t' ≤ maxsize ∧
        ∀ r ∈ stationReports [(1, 3)] sid' [⟨1, 50000, 50000, true⟩],
          r.start_time = t' ∧ r.end_time = t' :=
  C3_amended [(1, 3)] [⟨1, 50000, 50000, true⟩] 3 50000
    (by decide)
    (by
      intro r hr
      rw [List.mem_singleton] at hr
      subst hr
      exact ⟨3, rfl⟩)
    (by decide) (by decide) (by decide) (by decide)

/-- **C4.** For every ownership map and record list on which
`calculate_station_uptimes` succeeds, every returned
`(station_id, percentage)` pair has an integer percentage in `[0, 100]`. -/
theorem C4_percentages_in_range (cts : PyDict Int)
    (l : List DynChargerReport) (out : List (Int × Int))
    (h : calculate_station_uptimes cts l = .ok out) :
    ∀ p ∈ out, 0 ≤ p.2 ∧ p.2 ≤ 100 := by
  obtain ⟨hv, d2, hcs, hout⟩ := calculate_ok_elim cts l out h
  have hse := toReport_se l hv
  obtain ⟨d1, hsp, _, hcp⟩ :=
    calcStage_ok_elim cts (l.map DynChargerReport.toReport) d2 hcs
  have hnd1 : dNodup d1 := by
    show (dkeys d1).Nodup
    rw [spanPass_keys cts _ _ _ hsp]
    exact dNodup_initDict cts
  have hkeys2 : dkeys d2 = dkeys (initDict cts) := by
    rw [coveragePass_keys cts _ _ _ hnd1 hcp, spanPass_keys cts _ _ _ hsp]
  have hnd2 : dNodup d2 := by
    show (dkeys d2).Nodup
    rw [hkeys2]
    exact dNodup_initDict cts
  subst hout
  intro p hp
  rw [List.mem_map] at hp
  obtain ⟨⟨sid, st⟩, hmem, rfl⟩ := hp
  have hget : dget d2 sid = some st := dget_of_mem _ _ _ hnd2 hmem
  have hsid : sid ∈ cts.map Prod.snd := by
    have hk : sid ∈ dkeys d2 := (dget_isSome_iff _ _).mp (by rw [hget]; rfl)
    rw [hkeys2, mem_dkeys_initDict] at hk
    exact hk
  obtain ⟨st2, hget2, he, hl, ha⟩ :=
    calcStage_station cts (l.map DynChargerReport.toReport) d2 sid hcs hsid hse
  rw [hget] at hget2
  have hstst : st = st2 := Option.some.inj hget2
  rw [← hstst] at he hl ha
  simp only []
  by_cases hcard : (coveredSet none (availReports cts sid
      (sortReports (l.map DynChargerReport.toReport)))).card = 0
  · have ha0 : st.available_time = 0 := by rw [ha, hcard]; rfl
    rw [uptimePercent_zero_avail st ha0]
    exact ⟨le_refl 0, by norm_num⟩
  · obtain ⟨tw, htw⟩ :=
      Finset.card_pos.mp (Nat.pos_of_ne_zero hcard)
    rw [mem_coveredSet] at htw
    obtain ⟨r, hr, hrt1, hrt2⟩ := htw
    simp only [cmax] at hrt1
    have hrs := mem_avail_mem_station cts sid _ r hr
    have hle : st.earliest_charger_start_time ≤ r.start_time := by
      rw [he]
      exact foldl_min_le_mem _ _ _ (List.mem_map_of_mem _ hrs)
    have hge : r.end_time ≤ st.latest_charger_end_time := by
      rw [hl]
      exact le_foldl_max_mem _ _ _ (List.mem_map_of_mem _ hrs)
    have hspan_pos : 0 < st.latest_charger_end_time -
        st.earliest_charger_start_time := by omega
    have hsub : coveredSet none (availReports cts sid
        (sortReports (l.map DynChargerReport.toReport))) ⊆
        Finset.Ico st.earliest_charger_start_time
          st.latest_charger_end_time := by
      intro x hx
      rw [mem_coveredSet] at hx
      obtain ⟨j, hj, hj1, hj2⟩ := hx
      simp only [cmax] at hj1
      have hjs := mem_avail_mem_station cts sid _ j hj
      have h1 : st.earliest_charger_start_time ≤ j.start_time := by
        rw [he]
        exact foldl_min_le_mem _ _ _ (List.mem_map_of_mem _ hjs)
      have h2 : j.end_time ≤ st.latest_charger_end_time := by
        rw [hl]
        exact le_foldl_max_mem _ _ _ (List.mem_map_of_mem _ hjs)
      rw [Finset.mem_Ico]
      omega
    have hcardle : ((coveredSet none (availReports cts sid
        (sortReports (l.map DynChargerReport.toReport)))).card : Int) ≤
        st.latest_charger_end_time - st.earliest_charger_start_time := by
      have h1 := Finset.card_le_card hsub
      rw [Int.card_Ico] at h1
      calc ((coveredSet none (availReports cts sid
            (sortReports (l.map DynChargerReport.toReport)))).card : Int)
          ≤ ((st.latest_charger_end_time -
              st.earliest_charger_start_time).toNat : Int) := by
            exact_mod_cast h1
        _ = _ := Int.toNat_of_nonneg (le_of_lt hspan_pos)
    have h0a : 0 ≤ st.available_time := by
      rw [ha]
      exact Int.ofNat_nonneg _
    have haspan : st.available_time ≤ st.latest_charger_end_time -
        st.earliest_charger_start_time := by
      rw [ha]
      exact hcardle
    unfold uptimePercent
    apply pyTrunc_bounds
    · apply mul_nonneg _ (by norm_num)
      apply div_nonneg (by exact_mod_cast h0a)
      have : (0 : Int) ≤ st.latest_charger_end_time -
          st.earliest_charger_start_time := le_of_lt hspan_pos
      exact_mod_cast this
    · have hspanQ : (0 : ℚ) < ((st.latest_charger_end_time -
          st.earliest_charger_start_time : Int) : ℚ) := by
        exact_mod_cast hspan_pos
      have hdiv : (st.available_time : ℚ) /
          ((st.latest_charger_end_time -
            st.earliest_charger_start_time : Int) : ℚ) ≤ 1 := by
        rw [div_le_one hspanQ]
        exact_mod_cast haspan
      calc (st.available_time : ℚ) /
            ((st.latest_charger_end_time -
              st.earliest_charger_start_time : Int) : ℚ) * 100
          ≤ 1 * 100 := mul_le_mul_of_nonneg_right hdiv (by norm_num)
        _ = 100 := by norm_num

/-- **C4 (witness).** The range theorem applied to a concrete succeeding
input whose single output pair is `(0, 0)`. -/
theorem C4_witness : (0 : Int) ≤ 0 ∧ (0 : Int) ≤ 100 :=
  C4_percentages_in_range [(1, 0)] [⟨1, .fin 3, .fin 5, false⟩] [(0, 0)]
    (by
      simp [calculate_station_uptimes, validateReports, ETime.bgt, ETime.isInf,
        DynChargerReport.toReport, ETime.toIntD, calcStage, sortReports,
        List.insertionSort, List.orderedInsert, spanPass, spanStep, spanUpdate,
        initDict, dinsert, dget, initState, maxsize, firstDegenerate,
        coveragePass, coverageStep, coverUpdate, uptimePercent, pyTrunc])
    (0, 0) (by simp)

/-- **C5 (counterexample).** Processing the zero-length available record
`(1, 5, 5, true)` from the freshly initialized state does change the
station's `calculation_time`: the cursor moves from the `-inf` sentinel
(`none`) to `some 5`, contradicting the claim that the coverage pass leaves
the cursor unchanged on zero-length records. -/
theorem C5_counterexample :
    coverageStep [(1, 0)] (initDict [(1, 0)]) ⟨1, 5, 5, true⟩ =
      .ok [(0, ⟨maxsize, 0, some 5, 0⟩)] ∧
    dget (initDict [(1, 0)]) 0 = some ⟨maxsize, 0, none, 0⟩ ∧
    (some (5 : Int) : Option Int) ≠ (none : Option Int) := by
  refine ⟨by decide, by decide, by decide⟩

/-- **C5 (amended).** During the coverage pass, processing an available
record with `start_time = end_time` leaves the owning station's
`available_time` unchanged (it adds `end - start = 0`) and leaves the span
fields unchanged, but sets the cursor to the maximum of its previous value
and the record's time — so the cursor does advance whenever the point lies
at or above it (in particular from the `-inf` sentinel).  The record still
participates in the first pass's span extrema exactly like any other
record. -/
theorem C5_amended (cts : PyDict Int)
    (d : PyDict StationUptimeCalculationState) (r : ChargerReport)
    (sid : Int) (st : StationUptimeCalculationState)
    (hnd : dNodup d) (hzero : r.start_time = r.end_time)
    (hav : r.charger_available = true)
    (hcts : dget cts r.charger_id = some sid)
    (hd : dget d sid = some st) :
    coverageStep cts d r = .ok (dinsert d sid (coverUpdate st r)) ∧
    (coverUpdate st r).available_time = st.available_time ∧
    (coverUpdate st r).earliest_charger_start_time =
      st.earliest_charger_start_time ∧
    (coverUpdate st r).latest_charger_end_time =
      st.latest_charger_end_time ∧
    (coverUpdate st r).calculation_time =
      some (cmax st.calculation_time r.start_time) ∧
    (spanUpdate st r).earliest_charger_start_time =
      min st.earliest_charger_start_time r.start_time ∧
    (spanUpdate st r).latest_charger_end_time =
      max st.latest_charger_end_time r.end_time := by
  have hse : r.start_time ≤ r.end_time := le_of_eq hzero
  refine ⟨?_, ?_, ?_, ?_, ?_, ?_, ?_⟩
  · simp only [coverageStep_char cts d r hnd, hav, if_true, hcts, hd]
  · rw [coverUpdate_eq st r hse]
    simp only []
    have h1 : r.end_time ≤ cmax st.calculation_time r.start_time := by
      rw [← hzero]
      exact le_cmax_self _ _
    omega
  · rw [coverUpdate_eq st r hse]
  · rw [coverUpdate_eq st r hse]
  · rw [coverUpdate_eq st r hse]
    rw [hzero]
  · rw [spanUpdate_eq]
  · rw [spanUpdate_eq]

/-- **C5 (witness).** The amended claim at a concrete state: cursor at
`some 3`, zero-length available record at time `5`; the percentage-relevant
fields stay fixed and the cursor becomes `some 5 = some (max 3 5)`. -/
theorem C5_amended_witness :
    coverageStep [(1, 0)] [(0, ⟨2, 7, some 3, 4⟩)] ⟨1, 5, 5, true⟩ =
      .ok (dinsert [(0, ⟨2, 7, some 3, 4⟩)] 0
        (coverUpdate ⟨2, 7, some 3, 4⟩ ⟨1, 5, 5, true⟩)) ∧
    (coverUpdate ⟨2, 7, some 3, 4⟩ ⟨1, 5, 5, true⟩).available_time =
      (⟨2, 7, some 3, 4⟩ : StationUptimeCalculationState).available_time ∧
    (coverUpdate ⟨2, 7, some 3, 4⟩ ⟨1, 5, 5, true⟩).earliest_charger_start_time =
      (⟨2, 7, some 3, 4⟩ : StationUptimeCalculationState).earliest_charger_start_time ∧
    (coverUpdate ⟨2, 7, some 3, 4⟩ ⟨1, 5, 5, true⟩).latest_charger_end_time =
      (⟨2, 7, some 3, 4⟩ : StationUptimeCalculationState).latest_charger_end_time ∧
    (coverUpdate ⟨2, 7, some 3, 4⟩ ⟨1, 5, 5, true⟩).calculation_time =
      some (cmax (some 3) 5) ∧
    (spanUpdate ⟨2, 7, some 3, 4⟩ ⟨1, 5, 5, true⟩).earliest_charger_start_time =
      min 2 5 ∧
    (spanUpdate ⟨2, 7, some 3, 4⟩ ⟨1, 5, 5, true⟩).latest_charger_end_time =
      max 7 5 :=
  C5_amended [(1, 0)] [(0, ⟨2, 7, some 3, 4⟩)] ⟨1, 5, 5, true⟩ 0
    ⟨2, 7, some 3, 4⟩ (by unfold dNodup dkeys; decide) (by decide) (by decide)
    (by decide) (by decide)

/-- **C6 (code bug).** When a charger-id token in the stations section fails
integer parsing, the handler on line 144 does not report the offending
token: the comprehension variable of line 142 is not in scope there, so
Python reads the function-scoped `charger_id` leaked by the line-146 loop of
a previously parsed line.  On a first failing line that variable is unbound
and the call raises `NameError`; after a successfully parsed line the raised
`InvalidChargerReportValueError` carries the previous line's last charger id
(here the integer `1001`) instead of the offending text `"y"`. -/
theorem C6_stale_charger_id_bug :
    parse_charger_text_reports ["[Stations]\n", "0 x\n"] =
      .error .nameError ∧
    parse_charger_text_reports ["[Stations]\n", "0 1001\n", "1 y\n"] =
      .error (.invalidValueInt "charger_id" 2 1001) ∧
    ∀ lineIndex, parse_charger_text_reports ["[Stations]\n", "0 x\n"] ≠
      .error (.invalidValueStr "charger_id" lineIndex "x") := by
  refine ⟨by decide, by decide, fun lineIndex hc => ?_⟩
  rw [show parse_charger_text_reports ["[Stations]\n", "0 x\n"] =
    .error .nameError from by decide] at hc
  cases hc

/-- **C7.** For every ownership map and every pair of record lists that are
permutations of each other, whenever `calculate_station_uptimes` succeeds
on both, it returns the same result: the output station order comes from
the ownership map alone, and each station's span extrema and credited
available time are invariant under permuting the input records (the
aggregator re-sorts by start time, and the sweep's total equals the
cardinality of the covered instant set, which depends only on the record
multiset). -/
theorem C7_order_insensitivity (cts : PyDict Int)
    (l1 l2 : List DynChargerReport) (out1 out2 : List (Int × Int))
    (hperm : l1.Perm l2)
    (h1 : calculate_station_uptimes cts l1 = .ok out1)
    (h2 : calculate_station_uptimes cts l2 = .ok out2) :
    out1 = out2 := by
  obtain ⟨hv1, d2a, hcs1, hout1⟩ := calculate_ok_elim cts l1 out1 h1
  obtain ⟨hv2, d2b, hcs2, hout2⟩ := calculate_ok_elim cts l2 out2 h2
  have hse1 := toReport_se l1 hv1
  have hse2 := toReport_se l2 hv2
  have hpermr : (l1.map DynChargerReport.toReport).Perm
      (l2.map DynChargerReport.toReport) := hperm.map _
  obtain ⟨d1a, hspa, _, hcpa⟩ := calcStage_ok_elim cts _ d2a hcs1
  obtain ⟨d1b, hspb, _, hcpb⟩ := calcStage_ok_elim cts _ d2b hcs2
  have hnd1a : dNodup d1a := by
    show (dkeys d1a).Nodup
    rw [spanPass_keys cts _ _ _ hspa]
    exact dNodup_initDict cts
  have hnd1b : dNodup d1b := by
    show (dkeys d1b).Nodup
    rw [spanPass_keys cts _ _ _ hspb]
    exact dNodup_initDict cts
  have hka : dkeys d2a = dkeys (initDict cts) := by
    rw [coveragePass_keys cts _ _ _ hnd1a hcpa, spanPass_keys cts _ _ _ hspa]
  have hkb : dkeys d2b = dkeys (initDict cts) := by
    rw [coveragePass_keys cts _ _ _ hnd1b hcpb, spanPass_keys cts _ _ _ hspb]
  have hnd2a : dNodup d2a := by
    show (dkeys d2a).Nodup
    rw [hka]
    exact dNodup_initDict cts
  have hsortperm : (sortReports (l1.map DynChargerReport.toReport)).Perm
      (sortReports (l2.map DynChargerReport.toReport)) :=
    (sortReports_perm _).trans (hpermr.trans (sortReports_perm _).symm)
  have hf : ∀ k v1 v2, dget d2a k = some v1 → dget d2b k = some v2 →
      (k, uptimePercent v1) = (k, uptimePercent v2) := by
    intro k v1 v2 hg1 hg2
    have hsid : k ∈ cts.map Prod.snd := by
      have hk : k ∈ dkeys d2a := (dget_isSome_iff _ _).mp (by rw [hg1]; rfl)
      rw [hka, mem_dkeys_initDict] at hk
      exact hk
    obtain ⟨sa, hga, hea, hla, haa⟩ :=
      calcStage_station cts _ d2a k hcs1 hsid hse1
    obtain ⟨sb, hgb, heb, hlb, hab⟩ :=
      calcStage_station cts _ d2b k hcs2 hsid hse2
    rw [hg1] at hga
    rw [hg2] at hgb
    have hva : v1 = sa := Option.some.inj hga
    have hvb : v2 = sb := Option.some.inj hgb
    subst hva
    subst hvb
    have hstp : (stationReports cts k (sortReports
        (l1.map DynChargerReport.toReport))).Perm (stationReports cts k
          (sortReports (l2.map DynChargerReport.toReport))) :=
      hsortperm.filter _
    have havp : (availReports cts k (sortReports
        (l1.map DynChargerReport.toReport))).Perm (availReports cts k
          (sortReports (l2.map DynChargerReport.toReport))) :=
      hsortperm.filter _
    have hpc : uptimePercent v1 = uptimePercent v2 := by
      apply uptimePercent_congr
      · rw [hea, heb]
        exact foldl_min_perm (hstp.map _) maxsize
      · rw [hla, hlb]
        exact foldl_max_perm (hstp.map _) 0
      · rw [haa, hab, coveredSet_perm none havp]
    rw [hpc]
  subst hout1
  subst hout2
  exact dict_map_congr (fun k v => (k, uptimePercent v)) d2a d2b
    (hka.trans hkb.symm) hnd2a hf

/-- **C7 (witness).** The theorem applied to a two-record list and its
swap; both runs return `[(0, 0)]`. -/
theorem C7_witness : ([((0 : Int), (0 : Int))] : List (Int × Int)) = [(0, 0)] :=
  C7_order_insensitivity [(1, 0)]
    [⟨1, .fin 2, .fin 4, false⟩, ⟨1, .fin 3, .fin 5, false⟩]
    [⟨1, .fin 3, .fin 5, false⟩, ⟨1, .fin 2, .fin 4, false⟩]
    [(0, 0)] [(0, 0)]
    (List.Perm.swap (⟨1, .fin 3, .fin 5, false⟩ : DynChargerReport)
      (⟨1, .fin 2, .fin 4, false⟩ : DynChargerReport) [])
    (by
      simp [calculate_station_uptimes, validateReports, ETime.bgt, ETime.isInf,
        DynChargerReport.toReport, ETime.toIntD, calcStage, sortReports,
        List.insertionSort, List.orderedInsert, spanPass, spanStep, spanUpdate,
        initDict, dinsert, dget, initState, maxsize, firstDegenerate,
        coveragePass, coverageStep, coverUpdate, uptimePercent, pyTrunc])
    (by
      simp [calculate_station_uptimes, validateReports, ETime.bgt, ETime.isInf,
        DynChargerReport.toReport, ETime.toIntD, calcStage, sortReports,
        List.insertionSort, List.orderedInsert, spanPass, spanStep, spanUpdate,
        initDict, dinsert, dget, initState, maxsize, firstDegenerate,
        coveragePass, coverageStep, coverUpdate, uptimePercent, pyTrunc])

/-- **C8 (counterexample).** The record list below contains the record
`(2, +inf, +inf, T)`, whose times are infinite and not inverted, yet
`calculate_station_uptimes` raises the inverted-timeline condition for the
earlier record `(1, 5, 3, T)`: the validation loop checks records in order,
so an earlier inverted record preempts the infinite-timeline failure. -/
theorem C8_counterexample :
    calculate_station_uptimes [(1, 0)]
        [⟨1, .fin 5, .fin 3, true⟩, ⟨2, .pinf, .pinf, true⟩] =
      .error (.invertedTimeline 1 (.fin 5) (.fin 3)) ∧
    (ETime.pinf.isInf || ETime.pinf.isInf) = true ∧
    ETime.pinf.bgt ETime.pinf = false ∧
    calculate_station_uptimes [(1, 0)]
        [⟨1, .fin 5, .fin 3, true⟩, ⟨2, .pinf, .pinf, true⟩] ≠
      .error (.infiniteTimeline 2 .pinf .pinf) :=
  ⟨by decide, by decide, by decide, by decide⟩

/-- **C8 (amended).** For every record list of the form
`pre ++ [r] ++ post` where every record of `pre` passes both per-record
checks, and `r` is not inverted but has an infinite start or end time,
`calculate_station_uptimes` fails with the infinite-timeline condition
identifying `r`'s charger id and both of its times. -/
theorem C8_amended (cts : PyDict Int) (pre post : List DynChargerReport)
    (r : DynChargerReport)
    (hpre : ∀ q ∈ pre, q.start_time.bgt q.end_time = false ∧
      (q.start_time.isInf || q.end_time.isInf) = false)
    (hr1 : r.start_time.bgt r.end_time = false)
    (hr2 : (r.start_time.isInf || r.end_time.isInf) = true) :
    calculate_station_uptimes cts (pre ++ r :: post) =
      .error (.infiniteTimeline r.charger_id r.start_time r.end_time) := by
  have hval : validateReports (pre ++ r :: post) =
      some (.infiniteTimeline r.charger_id r.start_time r.end_time) := by
    induction pre with
    | nil => simp [validateReports, hr1, hr2]
    | cons q qs ih =>
      have hq := hpre q (List.mem_cons_self q qs)
      simp only [List.cons_append, validateReports, hq.1, hq.2,
        Bool.false_eq_true, if_false]
      exact ih (fun x hx => hpre x (List.mem_cons_of_mem q hx))
  unfold calculate_station_uptimes
  rw [hval]

/-- **C8 (witness).** The amended claim at a single infinite record. -/
theorem C8_amended_witness :
    calculate_station_uptimes [(1, 0)] [⟨1, .pinf, .pinf, true⟩] =
      .error (.infiniteTimeline 1 .pinf .pinf) :=
  C8_amended [(1, 0)] [] [] ⟨1, .pinf, .pinf, true⟩
    (by intro q hq; exact absurd hq (List.not_mem_nil q))
    (by decide) (by decide)

/-- **C9.** A station of the ownership map that owns no charger appearing
in any record never trips the degenerate-timeline check: after the span
pass its state is still the fresh `(sys.maxsize, 0, -inf, 0)` state, whose
`earliest` and `latest` differ, and on overall success it is returned with
percentage `0` (zero covered time divided by the negative span `0 -
sys.maxsize`, truncated to `0`). -/
theorem C9_zero_record_station (cts : PyDict Int) (rs : List ChargerReport)
    (sid : Int)
    (hsid : sid ∈ cts.map Prod.snd)
    (hnone : ∀ r ∈ rs, ¬ dget cts r.charger_id = some sid) :
    (∀ d1, spanPass cts (initDict cts) (sortReports rs) = .ok d1 →
      dget d1 sid = some initState ∧
      initState.earliest_charger_start_time ≠
        initState.latest_charger_end_time) ∧
    (∀ out, calcUptimes cts rs = .ok out → (sid, (0 : Int)) ∈ out) := by
  have hempty_sorted : stationReports cts sid (sortReports rs) = [] := by
    rw [stationReports, List.filter_eq_nil_iff]
    intro r hr
    simp only [decide_eq_true_eq]
    exact hnone r ((sortReports_perm rs).mem_iff.mp hr)
  have hempty_avail : availReports cts sid (sortReports rs) = [] := by
    rw [availReports, List.filter_eq_nil_iff]
    intro r hr
    simp only [Bool.and_eq_true, decide_eq_true_eq, not_and]
    intro _
    exact hnone r ((sortReports_perm rs).mem_iff.mp hr)
  constructor
  · intro d1 hsp
    have hinit : dget (initDict cts) sid = some initState := by
      rw [dget_initDict, if_pos hsid]
    have hproj := spanPass_proj cts (sortReports rs) _ d1 sid initState
      (dNodup_initDict cts) hsp hinit
    rw [hempty_sorted] at hproj
    exact ⟨hproj, by decide⟩
  · intro out hout
    obtain ⟨hse, d2, hcs, hout2⟩ := calcUptimes_ok_elim cts rs out hout
    obtain ⟨st, hget, _, _, ha⟩ := calcStage_station cts rs d2 sid hcs hsid hse
    rw [hempty_avail] at ha
    have ha0 : st.available_time = 0 := by rw [ha]; rfl
    have hpct := uptimePercent_zero_avail st ha0
    subst hout2
    rw [List.mem_map]
    refine ⟨(sid, st), mem_of_dget _ _ _ hget, ?_⟩
    simp [hpct]

/-- **C9 (witness).** The theorem at a concrete input: station 9 owns
charger 2, which never appears in the single record of charger 1. -/
theorem C9_witness :
    (∀ d1, spanPass [(1, 0), (2, 9)] (initDict [(1, 0), (2, 9)])
        (sortReports [⟨1, 3, 5, false⟩]) = .ok d1 →
      dget d1 9 = some initState ∧
      initState.earliest_charger_start_time ≠
        initState.latest_charger_end_time) ∧
    (∀ out, calcUptimes [(1, 0), (2, 9)] [⟨1, 3, 5, false⟩] = .ok out →
      (9, (0 : Int)) ∈ out) :=
  C9_zero_record_station [(1, 0), (2, 9)] [⟨1, 3, 5, false⟩] 9
    (by decide) (by decide)

/-- **C10 (counterexample).** An input whose reports section contains the
non-blank three-token line `"x 1 2\n"` does not raise `IndexError`: the
first token fails integer parsing before any out-of-range indexing happens,
so the parser raises the invalid-field-value condition instead. -/
theorem C10_counterexample :
    parse_charger_text_reports
        ["[Stations]\n", "0 1001\n", "\n",
         "[Charger Availability Reports]\n", "x 1 2\n"] =
      .error (.invalidValueStr "charger_id" 4 "x") ∧
    (pysplit "x 1 2\n").length < 4 ∧
    pyisspace "x 1 2\n" = false ∧
    parse_charger_text_reports
        ["[Stations]\n", "0 1001\n", "\n",
         "[Charger Availability Reports]\n", "x 1 2\n"] ≠
      .error .indexError :=
  ⟨by decide, by decide, by decide, by decide⟩

/-- **C10 (amended).** Whenever the reports-section loop reaches a
non-blank line with fewer than four whitespace-separated tokens, all of
whose tokens parse as integers, it raises `IndexError` (not any of the
enumerated parser conditions): the missing positional token is indexed
before anything else can fail. -/
theorem C10_amended (rest : List String) (line : String) (lineIndex : Nat)
    (acc : List ChargerReport)
    (hline : pyisspace line = false)
    (hshort : (pysplit line).length < 4)
    (hints : ∀ t ∈ pysplit line, (pyint t).isSome) :
    reportsLoop (line :: rest) lineIndex acc = .error .indexError := by
  simp only [reportsLoop, hline, Bool.false_eq_true, if_false]
  rcases hts : pysplit line with _ | ⟨t0, _ | ⟨t1, _ | ⟨t2, _ | ⟨t3, ts⟩⟩⟩⟩
  · simp
  · have h0 := hints t0 (by rw [hts]; exact List.mem_cons_self _ _)
    obtain ⟨n0, hn0⟩ := Option.isSome_iff_exists.mp h0
    simp [hn0]
  · have h0 := hints t0 (by rw [hts]; exact List.mem_cons_self _ _)
    have h1 := hints t1 (by
      rw [hts]
      exact List.mem_cons_of_mem _ (List.mem_cons_self _ _))
    obtain ⟨n0, hn0⟩ := Option.isSome_iff_exists.mp h0
    obtain ⟨n1, hn1⟩ := Option.isSome_iff_exists.mp h1
    simp [hn0, hn1]
  · have h0 := hints t0 (by rw [hts]; exact List.mem_cons_self _ _)
    have h1 := hints t1 (by
      rw [hts]
      exact List.mem_cons_of_mem _ (List.mem_cons_self _ _))
    have h2 := hints t2 (by
      rw [hts]
      exact List.mem_cons_of_mem _
        (List.mem_cons_of_mem _ (List.mem_cons_self _ _)))
    obtain ⟨n0, hn0⟩ := Option.isSome_iff_exists.mp h0
    obtain ⟨n1, hn1⟩ := Option.isSome_iff_exists.mp h1
    obtain ⟨n2, hn2⟩ := Option.isSome_iff_exists.mp h2
    simp [hn0, hn1, hn2]
  · rw [hts] at hshort
    simp only [List.length_cons] at hshort
    omega

/-- **C10 (witness).** The amended claim at the three-integer-token line
`"1 2 3\n"`. -/
theorem C10_amended_witness :
    reportsLoop ["1 2 3\n"] 0 [] = .error .indexError :=
  C10_amended [] "1 2 3\n" 0 [] (by decide) (by decide) (by decide)
